import Mathlib

/-!
Verification of the `tree` package of the go-example-cli repository
(`src/unnamed/part_000`, plus the `checksum` helper in `src/main.go`).

Shallow embedding conventions:
* Filesystem paths are modeled as lists of path segments (`FPath`).
  `filepath.Join(a, b)` on clean paths is list append, `filepath.Dir`
  is `dropLast` (Go's `"."` result is modeled as `[]`).
* The source filesystem seen by the tree builder is an `Entry` tree.
  Directory listings are the `entries` list; `os.ReadDir` errors
  (the one tolerated partial failure of `Node.walk`) are not modeled.
* `checksum.SHA256` opens the file at the node's path and hashes its
  bytes; it is modeled as an abstract pure function `hash` applied to
  the file's content, as the spec treats the checksum provider as an
  external collaborator.
* Go maps keyed by `child.Path` and holding `*Node` are modeled as
  `List GoNode` with lookup by the stored node's `Path` field: at every
  insertion site the key is exactly the inserted node's `Path`, and
  nodes are never mutated after construction.
* `Node.add` registers the child into `n.Root().table`.  The parent
  chain always ends at the tree's root, so this is the root's `table`
  map; it is threaded through the builder as the `rt` argument.  For
  the root itself the "local" table at lines 288-291 is the very same
  map as the global one, so that second insertion is always a no-op
  there; the model therefore assigns the final global table to the
  root's `table` field and discards the separately threaded local
  accumulator at top level (they agree for every non-root node).
* The builder also returns the list of registration events it performs,
  in program order, so that ordering properties of construction can be
  stated.
-/

/-- Filesystem path, as a list of path segments. -/
abbrev FPath := List String

/-- Models `filepath.Dir` on clean paths (Go's `"."` becomes `[]`). -/
def dirName (p : FPath) : FPath := p.dropLast

/-- `type Descriptor string`. -/
abbrev Descriptor := String

/-- `const File Descriptor = "FILE"`. -/
def File : Descriptor := "FILE"

/-- `const Directory Descriptor = "DIRECTORY"`. -/
def Directory : Descriptor := "DIRECTORY"

/-- `const Symbolic Descriptor = "SYMBOLIC"`. -/
def Symbolic : Descriptor := "SYMBOLIC"

/-- The error values of the package (`ExceptionNilNode` etc.). `Panic`
models a Go `panic(e)` raised from a wrapped I/O error. -/
inductive Exception where
  | NilNode
  | InvalidFileNode
  | InvalidDirectoryNode
  | InvalidDirectory
  | Panic
deriving DecidableEq, Repr

/-- A source filesystem entry: a file with content bytes and permission
bits, a directory with a listing and permission bits, or a symbolic
link with a target (never dereferenced by the builder). -/
inductive Entry where
  | file (content : String) (perm : Nat)
  | directory (entries : List (String × Entry)) (perm : Nat)
  | symlink (target : String)

/-- The `Node` struct: `Path`, `Dirname`, `Name`, `Type`, `Checksum`,
`Nodes` (children snapshot), and the unexported `table`, `depth`,
`content` fields.  The `parent` pointer is not a field of the model;
parent navigation is modeled separately (`parentIn`, `RootAux`). -/
inductive GoNode where
  | mk (path dirname : FPath) (name : String) (ty : Descriptor)
       (checksum : Option String) (nodes : List GoNode)
       (table : List GoNode) (depth : Nat) (content : Option String)

/-- Field `Path`. -/
def GoNode.Path : GoNode → FPath
  | .mk p _ _ _ _ _ _ _ _ => p

/-- Field `Dirname`. -/
def GoNode.Dirname : GoNode → FPath
  | .mk _ d _ _ _ _ _ _ _ => d

/-- Field `Name`. -/
def GoNode.Name : GoNode → String
  | .mk _ _ nm _ _ _ _ _ _ => nm

/-- Field `Type`. -/
def GoNode.ty : GoNode → Descriptor
  | .mk _ _ _ t _ _ _ _ _ => t

/-- Field `Checksum`. -/
def GoNode.Checksum : GoNode → Option String
  | .mk _ _ _ _ c _ _ _ _ => c

/-- Field `Nodes` (the children snapshot sequence). -/
def GoNode.Nodes : GoNode → List GoNode
  | .mk _ _ _ _ _ ns _ _ _ => ns

/-- Unexported field `table` (the node's live index). -/
def GoNode.table : GoNode → List GoNode
  | .mk _ _ _ _ _ _ tbl _ _ => tbl

/-- Unexported field `depth`. -/
def GoNode.depth : GoNode → Nat
  | .mk _ _ _ _ _ _ _ dep _ => dep

/-- Unexported field `content` (the lazily filled byte cache). -/
def GoNode.content : GoNode → Option String
  | .mk _ _ _ _ _ _ _ _ co => co

/-- Replace the `content` field (used by `Node.read`). -/
def GoNode.setContent : GoNode → Option String → GoNode
  | .mk p d nm t c ns tbl dep _, co => .mk p d nm t c ns tbl dep co

/-- A `map[string]*Node` keyed by the stored nodes' `Path` fields. -/
abbrev NodeMap := List GoNode

/-- Map lookup. -/
def lookupT (t : NodeMap) (p : FPath) : Option GoNode :=
  t.find? (fun m => m.Path == p)

/-- The guarded insertion of `Node.add`: a path already present is
never overwritten (first writer wins). -/
def insertFW (t : NodeMap) (c : GoNode) : NodeMap :=
  match lookupT t c.Path with
  | some _ => t
  | none => t ++ [c]

/-- One registration side effect of `Node.add`, in program order:
the root-table insertion attempt (lines 282-285), the parent-table
insertion attempt (lines 288-291), and the snapshot append
(line 293). -/
inductive Event where
  | registerGlobal (n : GoNode)
  | registerLocal (parent : FPath) (n : GoNode)
  | snapshotAppend (parent : FPath) (n : GoNode)

/-- The path of the node an event registers. -/
def Event.subject : Event → FPath
  | .registerGlobal n => n.Path
  | .registerLocal _ n => n.Path
  | .snapshotAppend _ n => n.Path

/-- The node an event registers. -/
def Event.node : Event → GoNode
  | .registerGlobal n => n
  | .registerLocal _ n => n
  | .snapshotAppend _ n => n

mutual

/-- `Node.add` (lines 270-294) for the child named `name` discovered as
`e` inside the directory node at `selfPath` / `selfDepth`.  The child's
full subtree is built first (for a directory, by walking it; for a
file, by computing the digest), then the child is registered into the
root table `rt`, the parent table `nt`, and the parent snapshot `ns`.
Returns the updated `(rt, nt, ns)` plus the events in program order. -/
def Node.add (hash : String → String) (selfPath : FPath) (selfDepth : Nat)
    (name : String) (e : Entry) (rt nt : NodeMap) (ns : List GoNode) :
    NodeMap × NodeMap × List GoNode × List Event :=
  match e with
  | .symlink _ =>
      let child : GoNode :=
        .mk (selfPath ++ [name]) (dirName (selfPath ++ [name])) name Symbolic
          none [] [] (selfDepth + 1) none
      (insertFW rt child, insertFW nt child, ns ++ [child],
        [.registerGlobal child, .registerLocal selfPath child,
         .snapshotAppend selfPath child])
  | .file content _ =>
      let child : GoNode :=
        .mk (selfPath ++ [name]) (dirName (selfPath ++ [name])) name File
          (some (hash content)) [] [] (selfDepth + 1) none
      (insertFW rt child, insertFW nt child, ns ++ [child],
        [.registerGlobal child, .registerLocal selfPath child,
         .snapshotAppend selfPath child])
  | .directory entries _ =>
      let r := Node.walk hash (selfPath ++ [name]) (selfDepth + 1) entries rt [] []
      let child : GoNode :=
        .mk (selfPath ++ [name]) (dirName (selfPath ++ [name])) name Directory
          none r.2.2.1 r.2.1 (selfDepth + 1) none
      (insertFW r.1 child, insertFW nt child, ns ++ [child],
        r.2.2.2 ++
          [.registerGlobal child, .registerLocal selfPath child,
           .snapshotAppend selfPath child])

/-- `Node.walk` (lines 296-331) over the remaining directory listing of
the node at `selfPath` / `selfDepth`, threading the root table `rt`,
the node's own table `nt` and snapshot `ns`. -/
def Node.walk (hash : String → String) (selfPath : FPath) (selfDepth : Nat)
    (es : List (String × Entry)) (rt nt : NodeMap) (ns : List GoNode) :
    NodeMap × NodeMap × List GoNode × List Event :=
  match es with
  | [] => (rt, nt, ns, [])
  | (name, e) :: rest =>
      let r1 := Node.add hash selfPath selfDepth name e rt nt ns
      let r2 := Node.walk hash selfPath selfDepth rest r1.1 r1.2.1 r1.2.2.1
      (r2.1, r2.2.1, r2.2.2.1, r1.2.2.2 ++ r2.2.2.2)

end

/-- `New` (lines 347-369): fails with `ExceptionInvalidDirectory` unless
the path names a directory, then builds the root node and walks it.
The root's `Name` is the path's base name and its `Dirname` is
`filepath.Dir` of that base name (`"."`, modeled as `[]`).  The root's
`table` is the global table produced by the walk (see the header note
on the root's table aliasing).  Also returns the event trace. -/
def New (hash : String → String) (path : FPath) (fs : Entry) :
    Except Exception (GoNode × List Event) :=
  match fs with
  | .directory es _ =>
      let name := (path.getLast?).getD ""
      let r := Node.walk hash path 0 es [] [] []
      .ok (GoNode.mk path (dirName [name]) name Directory none r.2.2.1 r.1 0 none,
        r.2.2.2)
  | _ => .error .InvalidDirectory

/-- `Node.Table` (lines 133-136). -/
def GoNode.Table (n : GoNode) : NodeMap := n.table

/-- `Node.Files` (lines 96-105): the file-typed entries of the node's
table (Go map iteration order is modeled as list order). -/
def GoNode.Files (n : GoNode) : List GoNode :=
  n.Table.filter (fun c => c.ty == File)

/-- `Node.Directories` (lines 107-116). -/
def GoNode.Directories (n : GoNode) : List GoNode :=
  n.Table.filter (fun c => c.ty == Directory)

mutual

/-- All nodes of a constructed tree: the node itself plus, recursively,
everything reachable through the children sequence. -/
def GoNode.treeNodes : GoNode → List GoNode
  | .mk p d nm t c ns tbl dep co =>
      (GoNode.mk p d nm t c ns tbl dep co) :: treeNodesList ns

/-- `treeNodes` over a list of children. -/
def treeNodesList : List GoNode → List GoNode
  | [] => []
  | c :: rest => c.treeNodes ++ treeNodesList rest

end

/-- The parent of `c` inside the tree rooted at `root`: the first tree
node whose children sequence holds a node with `c`'s path.  Go keeps a
`parent` pointer; for trees whose node paths are pairwise distinct
(always the case for real directory listings) the path determines the
node, so this lookup models the pointer exactly. -/
def parentIn (root c : GoNode) : Option GoNode :=
  root.treeNodes.find? (fun m => m.Nodes.any (fun x => x.Path == c.Path))

/-- `Node.Root` (lines 69-81) as a fuel-bounded walk up the parent
chain; in a constructed tree a node at depth `d` reaches the root in
exactly `d` steps. -/
def RootAux (root : GoNode) : Nat → GoNode → GoNode
  | 0, n => n
  | k + 1, n =>
      match parentIn root n with
      | none => n
      | some m => RootAux root k m

/-- `Node.Root` of a node belonging to the tree rooted at `root`. -/
def GoNode.RootOf (root n : GoNode) : GoNode := RootAux root n.depth n

/-- `Node.Map` (lines 128-131): the table of the node's root. -/
def GoNode.MapOf (root n : GoNode) : NodeMap := (GoNode.RootOf root n).table

/-- `Node.read` (lines 259-268): fill the content cache from disk when
the node is a file whose cache is empty; `os.ReadFile` failure is a
panic.  `fsread` is the state of the disk at call time. -/
def Node.read (fsread : FPath → Option String) (n : GoNode) :
    Except Exception GoNode :=
  if n.ty = File ∧ n.content = none then
    match fsread n.Path with
    | none => .error .Panic
    | some b => .ok (n.setContent (some b))
  else .ok n

/-- `Node.Contents` (lines 154-164) on a possibly nil receiver: returns
the (possibly freshly cached) bytes together with the node as it is
after the call. -/
def Node.Contents (fsread : FPath → Option String) (n : Option GoNode) :
    Except Exception (String × GoNode) :=
  match n with
  | none => .error .NilNode
  | some n =>
      if n.ty ≠ File then .error .InvalidFileNode
      else
        match Node.read fsread n with
        | .error e => .error e
        | .ok n2 => .ok ((n2.content).getD "", n2)

/-- A destination filesystem object: a regular file with content and
permission bits, or a directory with permission bits. -/
inductive FsObj where
  | fileObj (content : String) (perm : Nat)
  | dirObj (perm : Nat)
deriving DecidableEq, Repr

/-- The destination filesystem state for the mirror operations: a flat
association of paths to objects, plus the set of paths at which the
`stat` syscall fails with an error other than `ErrNotExist`
(e.g. permission denied on a parent component). -/
structure Dest where
  objs : List (FPath × FsObj)
  statFail : List FPath
deriving DecidableEq, Repr

/-- The object stored at `p`, if any. -/
def Dest.lookup (d : Dest) (p : FPath) : Option FsObj :=
  (d.objs.find? (fun x => x.1 == p)).map (fun x => x.2)

/-- Outcome of an `os.Stat` call. -/
inductive StatResult where
  | found (o : FsObj)
  | notExist
  | failure
deriving DecidableEq, Repr

/-- `os.Stat` against the destination. -/
def Dest.stat (d : Dest) (p : FPath) : StatResult :=
  if p ∈ d.statFail then .failure
  else
    match d.lookup p with
    | some o => .found o
    | none => .notExist

/-- Store `o` at `p`, replacing any object already there. -/
def Dest.setObj (d : Dest) (p : FPath) (o : FsObj) : Dest :=
  if d.objs.any (fun x => x.1 == p) then
    ⟨d.objs.map (fun x => if x.1 == p then (p, o) else x), d.statFail⟩
  else ⟨d.objs ++ [(p, o)], d.statFail⟩

/-- One `os.Mkdir`-with-check step of `os.MkdirAll`: an existing
directory is kept, an existing file is `ENOTDIR`, a failing stat makes
the subsequent `Mkdir` fail, and a missing component is created with
`perm`. -/
def Dest.mkdir1 (d : Dest) (p : FPath) (perm : Nat) : Except Exception Dest :=
  match d.stat p with
  | .found (.dirObj _) => .ok d
  | .found (.fileObj _ _) => .error .Panic
  | .failure => .error .Panic
  | .notExist => .ok (d.setObj p (.dirObj perm))

/-- `Dest.mkdir1` over a list of paths, aborting at the first error. -/
def mkdirAllAux (perm : Nat) : Dest → List FPath → Except Exception Dest
  | d, [] => .ok d
  | d, q :: rest =>
      match d.mkdir1 q perm with
      | .error e => .error e
      | .ok d2 => mkdirAllAux perm d2 rest

/-- `os.MkdirAll(p, perm)`: succeed at once if `p` is already a
directory, fail if it is a file, and otherwise create every missing
component of `p` (shortest prefix first) with permission `perm`; an
empty path (Go `MkdirAll("")`) fails as its `Mkdir` would. -/
def Dest.mkdirAll (d : Dest) (p : FPath) (perm : Nat) : Except Exception Dest :=
  match d.stat p with
  | .found (.dirObj _) => .ok d
  | .found (.fileObj _ _) => .error .Panic
  | _ =>
      if p = [] then .error .Panic
      else mkdirAllAux perm d ((List.range p.length).map (fun i => p.take (i + 1)))

/-- `os.WriteFile(p, content, perm)`: truncating write.  An existing
file keeps its own permission bits (`perm` applies only at creation);
writing over a directory fails.  Failures caused by missing parent
directories are not modeled. -/
def Dest.writeFile (d : Dest) (p : FPath) (content : String) (perm : Nat) :
    Except Exception Dest :=
  match d.lookup p with
  | some (.dirObj _) => .error .Panic
  | some (.fileObj _ oldPerm) => .ok (d.setObj p (.fileObj content oldPerm))
  | none => .ok (d.setObj p (.fileObj content perm))

/-- `os.RemoveAll(p)`: delete `p` and everything below it. -/
def Dest.removeAll (d : Dest) (p : FPath) : Dest :=
  ⟨d.objs.filter (fun x => !(decide (p <+: x.1))), d.statFail⟩

/-- `exists` (lines 333-345): `true` on a successful stat, `false` both
when the path does not exist and when the stat fails with any other
error. -/
def exists' (d : Dest) (path : FPath) : Bool :=
  match d.stat path with
  | .found _ => true
  | .notExist => false
  | .failure => false

/-- Resolve a node path against the live source filesystem: `src` is
the entry currently at `srcRoot`.  Symbolic links are not followed, so
resolution stops (fails) at a link; `os.Stat` would dereference, but
link targets point outside the modeled subtree. -/
def Entry.find : Entry → List String → Option Entry
  | e, [] => some e
  | .directory es _, nm :: rest =>
      match es.find? (fun x => x.1 == nm) with
      | some x => Entry.find x.2 rest
      | none => none
  | _, _ :: _ => none

/-- `os.Stat(p)` against the live source tree. -/
def statSrc (srcRoot : FPath) (src : Entry) (p : FPath) : Option Entry :=
  if srcRoot <+: p then Entry.find src (p.drop srcRoot.length) else none

/-- `Node.Permissions` (lines 87-94): re-read the node's current
on-disk permission bits; a stat failure is a panic. -/
def Node.Permissions (srcRoot : FPath) (src : Entry) (n : GoNode) :
    Except Exception Nat :=
  match statSrc srcRoot src n.Path with
  | some (.file _ perm) => .ok perm
  | some (.directory _ perm) => .ok perm
  | _ => .error .Panic

/-- The bytes produced by `file.Contents()` inside a mirror operation:
the cached content if present, otherwise the bytes currently on disk at
the node's path; a read failure is a panic. -/
def nodeBytes (srcRoot : FPath) (src : Entry) (n : GoNode) :
    Except Exception String :=
  match n.content with
  | some b => .ok b
  | none =>
      match statSrc srcRoot src n.Path with
      | some (.file c _) => .ok c
      | _ => .error .Panic

/-- The directory loop shared by the three mirror operations
(e.g. lines 174-179): for each directory in the list, create
`destination ++ directory.Path` with the directory's current source
permission bits. -/
def mkdirLoop (srcRoot : FPath) (src : Entry) (destination : FPath) :
    List GoNode → Dest → Except Exception Dest
  | [], d => .ok d
  | c :: rest, d =>
      match Node.Permissions srcRoot src c with
      | .error e => .error e
      | .ok perm =>
          match d.mkdirAll (destination ++ c.Path) perm with
          | .error e => .error e
          | .ok d2 => mkdirLoop srcRoot src destination rest d2

/-- The file loop of `Node.Copy` (lines 181-193): write a file child
only when the target's stat reports `ErrNotExist`; both an existing
target and a failing stat skip the write. -/
def copyFileLoop (srcRoot : FPath) (src : Entry) (destination : FPath) :
    List GoNode → Dest → Except Exception Dest
  | [], d => .ok d
  | c :: rest, d =>
      match d.stat (destination ++ c.Path) with
      | .notExist =>
          match nodeBytes srcRoot src c with
          | .error e => .error e
          | .ok bytes =>
              match Node.Permissions srcRoot src c with
              | .error e => .error e
              | .ok perm =>
                  match d.writeFile (destination ++ c.Path) bytes perm with
                  | .error e => .error e
                  | .ok d2 => copyFileLoop srcRoot src destination rest d2
      | _ => copyFileLoop srcRoot src destination rest d

/-- The file loop of `Node.Replicate` and `Node.Replace`
(lines 211-221, 245-255): write every file child unconditionally. -/
def writeFileLoop (srcRoot : FPath) (src : Entry) (destination : FPath) :
    List GoNode → Dest → Except Exception Dest
  | [], d => .ok d
  | c :: rest, d =>
      match nodeBytes srcRoot src c with
      | .error e => .error e
      | .ok bytes =>
          match Node.Permissions srcRoot src c with
          | .error e => .error e
          | .ok perm =>
              match d.writeFile (destination ++ c.Path) bytes perm with
              | .error e => .error e
              | .ok d2 => writeFileLoop srcRoot src destination rest d2

/-- `Node.Copy` (lines 170-194). -/
def Node.Copy (srcRoot : FPath) (src : Entry) (n : GoNode)
    (destination : FPath) (d : Dest) : Except Exception Dest :=
  match mkdirLoop srcRoot src destination n.Directories d with
  | .error e => .error e
  | .ok d1 => copyFileLoop srcRoot src destination n.Files d1

/-- `Node.Replicate` (lines 200-222). -/
def Node.Replicate (srcRoot : FPath) (src : Entry) (n : GoNode)
    (destination : FPath) (d : Dest) : Except Exception Dest :=
  match mkdirLoop srcRoot src destination n.Directories d with
  | .error e => .error e
  | .ok d1 => writeFileLoop srcRoot src destination n.Files d1

/-- `Node.Replace` (lines 228-256): delete the destination if it
exists, then proceed as `Replicate` does. -/
def Node.Replace (srcRoot : FPath) (src : Entry) (n : GoNode)
    (destination : FPath) (d : Dest) : Except Exception Dest :=
  let d0 := if exists' d destination then d.removeAll destination else d
  match mkdirLoop srcRoot src destination n.Directories d0 with
  | .error e => .error e
  | .ok d1 => writeFileLoop srcRoot src destination n.Files d1

/-- The three registration events `Node.add` performs for a completed
child, in program order. -/
def regEvents (parent : FPath) (c : GoNode) : List Event :=
  [.registerGlobal c, .registerLocal parent c, .snapshotAppend parent c]

mutual

/-- The node `Node.add` builds for the entry `e` named `name` at `path`
and `depth`, expressed without the threaded root table: the child's
shape does not depend on it (proved below as `add_eq`). -/
def buildNode (hash : String → String) (path : FPath) (name : String)
    (depth : Nat) : Entry → GoNode
  | .symlink _ => .mk path (dirName path) name Symbolic none [] [] depth none
  | .file content _ =>
      .mk path (dirName path) name File (some (hash content)) [] [] depth none
  | .directory es _ =>
      .mk path (dirName path) name Directory none (buildKids hash path depth es)
        (List.foldl insertFW [] (buildKids hash path depth es)) depth none

/-- The children `Node.walk` builds for a listing of the directory at
`path` / `depth`. -/
def buildKids (hash : String → String) (path : FPath) (depth : Nat) :
    List (String × Entry) → List GoNode
  | [] => []
  | (nm, e) :: rest =>
      buildNode hash (path ++ [nm]) nm (depth + 1) e ::
        buildKids hash path depth rest

end

mutual

/-- The event trace of `Node.add` for one child (proved below as
`add_eq`): for a directory, the whole subtree's events come first,
then the child's own three registrations. -/
def addTrace (hash : String → String) (selfPath : FPath) (selfDepth : Nat)
    (name : String) : Entry → List Event
  | .symlink t =>
      regEvents selfPath
        (buildNode hash (selfPath ++ [name]) name (selfDepth + 1) (.symlink t))
  | .file c p =>
      regEvents selfPath
        (buildNode hash (selfPath ++ [name]) name (selfDepth + 1) (.file c p))
  | .directory es p =>
      walkTrace hash (selfPath ++ [name]) (selfDepth + 1) es ++
        regEvents selfPath
          (buildNode hash (selfPath ++ [name]) name (selfDepth + 1)
            (.directory es p))

/-- The event trace of `Node.walk` over a directory listing. -/
def walkTrace (hash : String → String) (selfPath : FPath) (selfDepth : Nat) :
    List (String × Entry) → List Event
  | [] => []
  | (nm, e) :: rest =>
      addTrace hash selfPath selfDepth nm e ++
        walkTrace hash selfPath selfDepth rest

end

/-- The nodes registered into the root table, in registration order. -/
def globalNodes (tr : List Event) : List GoNode :=
  tr.filterMap (fun ev =>
    match ev with
    | .registerGlobal n => some n
    | _ => none)

mutual

/-- Sibling names are pairwise distinct throughout the tree — always
true of the listings `os.ReadDir` returns for a real filesystem. -/
def Entry.uniqueNames : Entry → Bool
  | .file _ _ => true
  | .symlink _ => true
  | .directory es _ =>
      decide ((es.map Prod.fst).Nodup) && kidsUnique es

/-- `uniqueNames` over a listing. -/
def kidsUnique : List (String × Entry) → Bool
  | [] => true
  | (_, e) :: rest => e.uniqueNames && kidsUnique rest

end

/-- Depth-first registration order: a later event `b` never registers a
strict descendant of a node already registered by an earlier event `a`
— equivalently, a node's whole subtree is registered before the node
itself is. -/
def depthFirstOrder (a b : Event) : Prop :=
  ¬(a.subject <+: b.subject ∧ a.subject ≠ b.subject)

/-- A default node value, used only to totalize sample projections. -/
def emptyNode : GoNode := .mk [] [] "" "" none [] [] 0 none

/-- The identity digest function used by the concrete samples. -/
def hashId : String → String := fun s => s

/-- Sample source tree: `r/a.txt` (bytes `hi`), `r/b/c.txt` (bytes `x`). -/
def fsA : Entry :=
  .directory [("a.txt", .file "hi" 420), ("b", .directory [("c.txt", .file "x" 416)] 493)] 509

/-- The root built from `fsA`. -/
def rootA : GoNode :=
  match New hashId ["r"] fsA with
  | .ok (root, _) => root
  | .error _ => emptyNode

/-- The construction trace of `fsA`. -/
def trA : List Event :=
  match New hashId ["r"] fsA with
  | .ok (_, tr) => tr
  | .error _ => []

/-- The destination state produced by copying `rootA` onto an empty
destination `d`. -/
def dC2X : Dest :=
  match Node.Copy ["r"] fsA rootA ["d"] ⟨[], []⟩ with
  | .ok d => d
  | .error _ => ⟨[], []⟩

/-- Sample source tree with a single file child. -/
def fs1 : Entry := .directory [("a.txt", .file "hi" 420)] 493

/-- The root built from `fs1`. -/
def root1 : GoNode :=
  match New hashId ["r"] fs1 with
  | .ok (root, _) => root
  | .error _ => emptyNode

/-- A destination on which stat fails at the copy target of `a.txt`. -/
def destC4 : Dest := ⟨[(["d", "r"], .dirObj 493)], [["d", "r", "a.txt"]]⟩

/-- A destination that already holds different content at the copy
target of `a.txt`. -/
def destC6 : Dest := ⟨[(["d", "r", "a.txt"], .fileObj "OLD" 7)], []⟩

/-- The destination state produced by copying `rootA` onto `destC6`. -/
def dC6X : Dest :=
  match Node.Copy ["r"] fsA rootA ["d"] destC6 with
  | .ok d => d
  | .error _ => ⟨[], []⟩

/-- A sample already-constructed file node with an empty cache. -/
def fileNodeA : GoNode :=
  .mk ["r", "a.txt"] ["r"] "a.txt" File (some "hi") [] [] 1 none

/-- The disk state seen by the sample `Contents` calls. -/
def fsreadA : FPath → Option String :=
  fun p => if p == ["r", "a.txt"] then some "hi" else none

theorem lookupT_insertFW (t : NodeMap) (c : GoNode) (p : FPath) :
    lookupT (insertFW t c) p =
      match lookupT t p with
      | some m => some m
      | none => if c.Path = p then some c else none := by
  unfold insertFW
  cases h1 : lookupT t c.Path with
  | some m =>
      cases h2 : lookupT t p with
      | some m2 => simp [h2]
      | none =>
          simp only [h2]
          by_cases hp : c.Path = p
          · rw [hp] at h1; rw [h2] at h1; cases h1
          · simp [hp]
  | none =>
      cases h2 : lookupT t p with
      | some m2 =>
          unfold lookupT at h2 ⊢
          simp [List.find?_append, h2]
      | none =>
          unfold lookupT at h2 ⊢
          simp only [List.find?_append, h2, Option.none_or]
          by_cases hp : c.Path = p
          · simp [List.find?, hp]
          · have hb : (c.Path == p) = false := by simp [hp]
            simp [List.find?, hp, hb]

theorem lookupT_foldl (l : List GoNode) (t : NodeMap) (p : FPath) :
    lookupT (List.foldl insertFW t l) p =
      match lookupT t p with
      | some m => some m
      | none => l.find? (fun m => m.Path == p) := by
  induction l generalizing t with
  | nil => cases h : lookupT t p <;> simp [h]
  | cons c rest ih =>
      rw [List.foldl_cons, ih (insertFW t c), lookupT_insertFW]
      cases h : lookupT t p with
      | some m => simp
      | none =>
          by_cases hp : c.Path = p
          · simp [hp, List.find?_cons]
          · have : (c.Path == p) = false := by simp [hp]
            simp [hp, List.find?_cons, this]

theorem globalNodes_append (t1 t2 : List Event) :
    globalNodes (t1 ++ t2) = globalNodes t1 ++ globalNodes t2 :=
  List.filterMap_append _ _ _

theorem globalNodes_regEvents (P : FPath) (c : GoNode) :
    globalNodes (regEvents P c) = [c] := rfl

mutual

theorem add_eq : ∀ (hash : String → String) (P : FPath) (dep : Nat)
    (nm : String) (e : Entry) (rt nt : NodeMap) (ns : List GoNode),
    Node.add hash P dep nm e rt nt ns =
      (List.foldl insertFW rt (globalNodes (addTrace hash P dep nm e)),
       insertFW nt (buildNode hash (P ++ [nm]) nm (dep + 1) e),
       ns ++ [buildNode hash (P ++ [nm]) nm (dep + 1) e],
       addTrace hash P dep nm e)
  | hash, P, dep, nm, .symlink t, rt, nt, ns => rfl
  | hash, P, dep, nm, .file c q, rt, nt, ns => rfl
  | hash, P, dep, nm, .directory es q, rt, nt, ns => by
      have ih := walk_eq hash (P ++ [nm]) (dep + 1) es rt [] []
      simp only [Node.add, ih, addTrace, buildNode, globalNodes_append,
        globalNodes_regEvents, List.foldl_append, List.nil_append]
      rfl

theorem walk_eq : ∀ (hash : String → String) (P : FPath) (dep : Nat)
    (es : List (String × Entry)) (rt nt : NodeMap) (ns : List GoNode),
    Node.walk hash P dep es rt nt ns =
      (List.foldl insertFW rt (globalNodes (walkTrace hash P dep es)),
       List.foldl insertFW nt (buildKids hash P dep es),
       ns ++ buildKids hash P dep es,
       walkTrace hash P dep es)
  | hash, P, dep, [], rt, nt, ns => by
      simp [Node.walk, walkTrace, buildKids, globalNodes]
  | hash, P, dep, (nm, e) :: rest, rt, nt, ns => by
      have ih1 := add_eq hash P dep nm e rt nt ns
      have ih2 := walk_eq hash P dep rest
        (List.foldl insertFW rt (globalNodes (addTrace hash P dep nm e)))
        (insertFW nt (buildNode hash (P ++ [nm]) nm (dep + 1) e))
        (ns ++ [buildNode hash (P ++ [nm]) nm (dep + 1) e])
      simp only [Node.walk, ih1, ih2, walkTrace, buildKids,
        globalNodes_append, List.foldl_append, List.foldl_cons,
        List.append_assoc, List.singleton_append]

end

theorem buildNode_Path (hash : String → String) (path : FPath) (nm : String)
    (dep : Nat) (e : Entry) : (buildNode hash path nm dep e).Path = path := by
  cases e <;> rfl

theorem buildNode_depth (hash : String → String) (path : FPath) (nm : String)
    (dep : Nat) (e : Entry) : (buildNode hash path nm dep e).depth = dep := by
  cases e <;> rfl

theorem buildKids_depth (hash : String → String) (path : FPath) (dep : Nat)
    (es : List (String × Entry)) :
    ∀ c ∈ buildKids hash path dep es, c.depth = dep + 1 := by
  induction es with
  | nil => simp [buildKids]
  | cons hd rest ih =>
      obtain ⟨nm, e⟩ := hd
      intro c hc
      simp only [buildKids, List.mem_cons] at hc
      cases hc with
      | inl h => rw [h, buildNode_depth]
      | inr h => exact ih c h

theorem buildKids_path (hash : String → String) (path : FPath) (dep : Nat)
    (es : List (String × Entry)) :
    ∀ c ∈ buildKids hash path dep es,
      ∃ nm, nm ∈ es.map Prod.fst ∧ c.Path = path ++ [nm] := by
  induction es with
  | nil => simp [buildKids]
  | cons hd rest ih =>
      obtain ⟨nm, e⟩ := hd
      intro c hc
      simp only [buildKids, List.mem_cons] at hc
      cases hc with
      | inl h =>
          refine ⟨nm, by simp, ?_⟩
          rw [h, buildNode_Path]
      | inr h =>
          obtain ⟨nm2, hmem, hp⟩ := ih c h
          exact ⟨nm2, by simp [hmem], hp⟩

theorem mem_foldl_insertFW (l : List GoNode) (t : NodeMap) (c : GoNode) :
    c ∈ List.foldl insertFW t l → c ∈ t ∨ c ∈ l := by
  induction l generalizing t with
  | nil => intro h; exact Or.inl h
  | cons a rest ih =>
      intro h
      rw [List.foldl_cons] at h
      cases ih (insertFW t a) h with
      | inl hin =>
          unfold insertFW at hin
          cases hl : lookupT t a.Path with
          | some m => rw [hl] at hin; exact Or.inl hin
          | none =>
              rw [hl] at hin
              rcases List.mem_append.mp hin with h1 | h2
              · exact Or.inl h1
              · simp at h2; subst h2; exact Or.inr (by simp)
      | inr hin => exact Or.inr (by simp [hin])

theorem prefix_snoc_agree (P : FPath) (a b : String) (q : FPath) :
    P ++ [a] <+: q → P ++ [b] <+: q → a = b := by
  rintro ⟨t1, h1⟩ ⟨t2, h2⟩
  rw [← h2] at h1
  simp only [List.append_assoc] at h1
  have h3 := List.append_cancel_left h1
  simp only [List.singleton_append, List.cons.injEq] at h3
  exact h3.1

theorem mem_treeNodes_self (n : GoNode) : n ∈ n.treeNodes := by
  cases n with
  | mk p d nm t c ns tbl dep co => simp [GoNode.treeNodes]

theorem mem_treeNodesList_of_mem (l : List GoNode) (x : GoNode) :
    x ∈ l → x ∈ treeNodesList l := by
  induction l with
  | nil => simp
  | cons c rest ih =>
      intro h
      simp only [List.mem_cons] at h
      simp only [treeNodesList, List.mem_append]
      cases h with
      | inl h => exact Or.inl (h ▸ mem_treeNodes_self c)
      | inr h => exact Or.inr (ih h)

theorem mem_treeNodesList_iff (l : List GoNode) (x : GoNode) :
    x ∈ treeNodesList l ↔ ∃ c ∈ l, x ∈ c.treeNodes := by
  induction l with
  | nil => simp [treeNodesList]
  | cons c rest ih =>
      simp only [treeNodesList, List.mem_append, ih, List.mem_cons]
      constructor
      · rintro (h | ⟨c2, hc2, hx⟩)
        · exact ⟨c, Or.inl rfl, h⟩
        · exact ⟨c2, Or.inr hc2, hx⟩
      · rintro ⟨c2, hc2 | hc2, hx⟩
        · exact Or.inl (hc2 ▸ hx)
        · exact Or.inr ⟨c2, hc2, hx⟩

mutual

theorem treeNodes_trans : ∀ (n : GoNode), ∀ m ∈ n.treeNodes, ∀ x ∈ m.treeNodes,
    x ∈ n.treeNodes
  | .mk p d nm t c ns tbl dep co => by
      intro m hm x hx
      simp only [GoNode.treeNodes, List.mem_cons] at hm ⊢
      cases hm with
      | inl h =>
          subst h
          simp only [GoNode.treeNodes, List.mem_cons] at hx
          exact hx
      | inr h => exact Or.inr (treeNodesList_trans ns m h x hx)

theorem treeNodesList_trans : ∀ (l : List GoNode), ∀ m ∈ treeNodesList l,
    ∀ x ∈ m.treeNodes, x ∈ treeNodesList l
  | [] => by simp [treeNodesList]
  | c :: rest => by
      intro m hm x hx
      simp only [treeNodesList, List.mem_append] at hm ⊢
      cases hm with
      | inl h => exact Or.inl (treeNodes_trans c m h x hx)
      | inr h => exact Or.inr (treeNodesList_trans rest m h x hx)

end

mutual

theorem parent_exists : ∀ (n : GoNode), ∀ x ∈ n.treeNodes,
    x = n ∨ ∃ m ∈ n.treeNodes, x ∈ m.Nodes
  | .mk p d nm t c ns tbl dep co => by
      intro x hx
      simp only [GoNode.treeNodes, List.mem_cons] at hx
      cases hx with
      | inl h => exact Or.inl h
      | inr h =>
          right
          cases parentList_exists ns x h with
          | inl h2 =>
              refine ⟨.mk p d nm t c ns tbl dep co, mem_treeNodes_self _, ?_⟩
              simpa [GoNode.Nodes] using h2
          | inr h2 =>
              obtain ⟨m, hm, hxm⟩ := h2
              refine ⟨m, ?_, hxm⟩
              simp only [GoNode.treeNodes, List.mem_cons]
              exact Or.inr hm

theorem parentList_exists : ∀ (l : List GoNode), ∀ x ∈ treeNodesList l,
    x ∈ l ∨ ∃ m ∈ treeNodesList l, x ∈ m.Nodes
  | [] => by simp [treeNodesList]
  | c :: rest => by
      intro x hx
      simp only [treeNodesList, List.mem_append] at hx
      cases hx with
      | inl h =>
          cases parent_exists c x h with
          | inl h2 => exact Or.inl (by simp [h2])
          | inr h2 =>
              obtain ⟨m, hm, hxm⟩ := h2
              refine Or.inr ⟨m, ?_, hxm⟩
              simp only [treeNodesList, List.mem_append]
              exact Or.inl hm
      | inr h =>
          cases parentList_exists rest x h with
          | inl h2 => exact Or.inl (by simp [h2])
          | inr h2 =>
              obtain ⟨m, hm, hxm⟩ := h2
              refine Or.inr ⟨m, ?_, hxm⟩
              simp only [treeNodesList, List.mem_append]
              exact Or.inr hm

end

mutual

theorem buildNode_tree_path : ∀ (hash : String → String) (path : FPath)
    (nm : String) (dep : Nat) (e : Entry),
    ∀ x ∈ (buildNode hash path nm dep e).treeNodes,
      path <+: x.Path ∧ x.depth + path.length = dep + x.Path.length ∧
        dep ≤ x.depth
  | hash, path, nm, dep, .symlink t => by
      intro x hx
      simp only [buildNode, GoNode.treeNodes, treeNodesList,
        List.mem_singleton] at hx
      subst hx
      simp [GoNode.Path, GoNode.depth]
  | hash, path, nm, dep, .file c q => by
      intro x hx
      simp only [buildNode, GoNode.treeNodes, treeNodesList,
        List.mem_singleton] at hx
      subst hx
      simp [GoNode.Path, GoNode.depth]
  | hash, path, nm, dep, .directory es q => by
      intro x hx
      simp only [buildNode, GoNode.treeNodes, List.mem_cons] at hx
      cases hx with
      | inl h =>
          subst h
          simp [GoNode.Path, GoNode.depth]
      | inr h =>
          obtain ⟨⟨nm2, _, hpre⟩, heq, hdep⟩ :=
            buildKids_tree_path hash path dep es x h
          refine ⟨?_, heq, by omega⟩
          exact List.IsPrefix.trans (List.prefix_append path [nm2]) hpre

theorem buildKids_tree_path : ∀ (hash : String → String) (path : FPath)
    (dep : Nat) (es : List (String × Entry)),
    ∀ x ∈ treeNodesList (buildKids hash path dep es),
      (∃ nm2, nm2 ∈ es.map Prod.fst ∧ path ++ [nm2] <+: x.Path) ∧
        x.depth + path.length = dep + x.Path.length ∧ dep + 1 ≤ x.depth
  | hash, path, dep, [] => by simp [buildKids, treeNodesList]
  | hash, path, dep, (nm1, e1) :: rest => by
      intro x hx
      simp only [buildKids, treeNodesList, List.mem_append] at hx
      cases hx with
      | inl h =>
          obtain ⟨hpre, heq, hdep⟩ :=
            buildNode_tree_path hash (path ++ [nm1]) nm1 (dep + 1) e1 x h
          have hlen : (path ++ [nm1]).length = path.length + 1 := by simp
          refine ⟨⟨nm1, by simp, hpre⟩, by omega, by omega⟩
      | inr h =>
          obtain ⟨⟨nm2, hmem, hpre⟩, heq, hdep⟩ :=
            buildKids_tree_path hash path dep rest x h
          exact ⟨⟨nm2, by simp [hmem], hpre⟩, heq, hdep⟩

end

mutual

theorem buildNode_inv : ∀ (hash : String → String) (path : FPath)
    (nm : String) (dep : Nat) (e : Entry),
    ∀ x ∈ (buildNode hash path nm dep e).treeNodes,
      (x.ty = File ∨ x.ty = Directory ∨ x.ty = Symbolic) ∧
      (x.Checksum.isSome ↔ x.ty = File) ∧
      (x.ty = Symbolic → x.Nodes = [] ∧ x.table = []) ∧
      (∀ c ∈ x.Nodes, c.depth = x.depth + 1) ∧
      (∀ c ∈ x.table, c ∈ x.Nodes)
  | hash, path, nm, dep, .symlink t => by
      intro x hx
      simp only [buildNode, GoNode.treeNodes, treeNodesList,
        List.mem_singleton] at hx
      subst hx
      refine ⟨Or.inr (Or.inr rfl), by simp [GoNode.Checksum, GoNode.ty, File, Symbolic], ?_, ?_, ?_⟩
      · intro _; exact ⟨rfl, rfl⟩
      · simp [GoNode.Nodes]
      · simp [GoNode.table]
  | hash, path, nm, dep, .file c q => by
      intro x hx
      simp only [buildNode, GoNode.treeNodes, treeNodesList,
        List.mem_singleton] at hx
      subst hx
      refine ⟨Or.inl rfl, by simp [GoNode.Checksum, GoNode.ty], ?_, ?_, ?_⟩
      · intro h
        simp only [GoNode.ty, File, Symbolic] at h
        exact absurd h (by decide)
      · simp [GoNode.Nodes]
      · simp [GoNode.table]
  | hash, path, nm, dep, .directory es q => by
      intro x hx
      simp only [buildNode, GoNode.treeNodes, List.mem_cons] at hx
      cases hx with
      | inl h =>
          subst h
          refine ⟨Or.inr (Or.inl rfl),
            by simp [GoNode.Checksum, GoNode.ty, File, Directory], ?_, ?_, ?_⟩
          · intro h2
            simp only [GoNode.ty, Directory, Symbolic] at h2
            exact absurd h2 (by decide)
          · intro c hc
            simp only [GoNode.Nodes] at hc
            simp only [GoNode.depth]
            exact buildKids_depth hash path dep es c hc
          · intro c hc
            simp only [GoNode.table] at hc
            simp only [GoNode.Nodes]
            cases mem_foldl_insertFW _ _ _ hc with
            | inl h2 => cases h2
            | inr h2 => exact h2
      | inr h => exact buildKids_inv hash path dep es x h

theorem buildKids_inv : ∀ (hash : String → String) (path : FPath) (dep : Nat)
    (es : List (String × Entry)),
    ∀ x ∈ treeNodesList (buildKids hash path dep es),
      (x.ty = File ∨ x.ty = Directory ∨ x.ty = Symbolic) ∧
      (x.Checksum.isSome ↔ x.ty = File) ∧
      (x.ty = Symbolic → x.Nodes = [] ∧ x.table = []) ∧
      (∀ c ∈ x.Nodes, c.depth = x.depth + 1) ∧
      (∀ c ∈ x.table, c ∈ x.Nodes)
  | hash, path, dep, [] => by simp [buildKids, treeNodesList]
  | hash, path, dep, (nm1, e1) :: rest => by
      intro x hx
      simp only [buildKids, treeNodesList, List.mem_append] at hx
      cases hx with
      | inl h => exact buildNode_inv hash (path ++ [nm1]) nm1 (dep + 1) e1 x h
      | inr h => exact buildKids_inv hash path dep rest x h

end

mutual

theorem addTrace_subject : ∀ (hash : String → String) (P : FPath) (dep : Nat)
    (nm : String) (e : Entry),
    ∀ ev ∈ addTrace hash P dep nm e, (P ++ [nm]) <+: ev.subject
  | hash, P, dep, nm, .symlink t => by
      intro ev hv
      simp only [addTrace, regEvents, List.mem_cons, List.mem_singleton,
        List.not_mem_nil, or_false] at hv
      rcases hv with h | h | h
      all_goals
        subst h
        simp [Event.subject, buildNode_Path]
  | hash, P, dep, nm, .file c q => by
      intro ev hv
      simp only [addTrace, regEvents, List.mem_cons, List.mem_singleton,
        List.not_mem_nil, or_false] at hv
      rcases hv with h | h | h
      all_goals
        subst h
        simp [Event.subject, buildNode_Path]
  | hash, P, dep, nm, .directory es q => by
      intro ev hv
      simp only [addTrace, List.mem_append] at hv
      cases hv with
      | inl h =>
          obtain ⟨nm2, _, hpre⟩ :=
            walkTrace_subject hash (P ++ [nm]) (dep + 1) es ev h
          exact List.IsPrefix.trans (List.prefix_append (P ++ [nm]) [nm2]) hpre
      | inr h =>
          simp only [regEvents, List.mem_cons, List.mem_singleton,
            List.not_mem_nil, or_false] at h
          rcases h with h | h | h
          all_goals
            subst h
            simp [Event.subject, buildNode_Path]

theorem walkTrace_subject : ∀ (hash : String → String) (P : FPath) (dep : Nat)
    (es : List (String × Entry)),
    ∀ ev ∈ walkTrace hash P dep es,
      ∃ nm, nm ∈ es.map Prod.fst ∧ (P ++ [nm]) <+: ev.subject
  | hash, P, dep, [] => by simp [walkTrace]
  | hash, P, dep, (nm1, e1) :: rest => by
      intro ev hv
      simp only [walkTrace, List.mem_append] at hv
      cases hv with
      | inl h =>
          exact ⟨nm1, by simp, addTrace_subject hash P dep nm1 e1 ev h⟩
      | inr h =>
          obtain ⟨nm2, hmem, hpre⟩ := walkTrace_subject hash P dep rest ev h
          exact ⟨nm2, by simp [hmem], hpre⟩

end

mutual

theorem mem_globals_addTrace : ∀ (hash : String → String) (P : FPath)
    (dep : Nat) (nm : String) (e : Entry) (x : GoNode),
    x ∈ globalNodes (addTrace hash P dep nm e) ↔
      x ∈ (buildNode hash (P ++ [nm]) nm (dep + 1) e).treeNodes
  | hash, P, dep, nm, .symlink t, x => by
      simp [addTrace, globalNodes_regEvents, buildNode, GoNode.treeNodes,
        treeNodesList]
  | hash, P, dep, nm, .file c q, x => by
      simp [addTrace, globalNodes_regEvents, buildNode, GoNode.treeNodes,
        treeNodesList]
  | hash, P, dep, nm, .directory es q, x => by
      have ih := mem_globals_walkTrace hash (P ++ [nm]) (dep + 1) es x
      simp only [addTrace, globalNodes_append, globalNodes_regEvents,
        List.mem_append, List.mem_singleton, ih, buildNode, GoNode.treeNodes,
        List.mem_cons]
      tauto

theorem mem_globals_walkTrace : ∀ (hash : String → String) (P : FPath)
    (dep : Nat) (es : List (String × Entry)) (x : GoNode),
    x ∈ globalNodes (walkTrace hash P dep es) ↔
      x ∈ treeNodesList (buildKids hash P dep es)
  | hash, P, dep, [], x => by simp [walkTrace, buildKids, treeNodesList, globalNodes]
  | hash, P, dep, (nm1, e1) :: rest, x => by
      have ih1 := mem_globals_addTrace hash P dep nm1 e1 x
      have ih2 := mem_globals_walkTrace hash P dep rest x
      simp only [walkTrace, buildKids, treeNodesList, globalNodes_append,
        List.mem_append, ih1, ih2]

end

theorem regEvents_subject (P : FPath) (c : GoNode) :
    ∀ ev ∈ regEvents P c, ev.subject = c.Path := by
  intro ev hv
  simp only [regEvents, List.mem_cons, List.mem_singleton,
    List.not_mem_nil, or_false] at hv
  rcases hv with h | h | h
  all_goals
    subst h
    rfl

theorem pairwise_const_subject (l : List Event) (p : FPath)
    (h : ∀ ev ∈ l, ev.subject = p) : List.Pairwise depthFirstOrder l := by
  induction l with
  | nil => exact List.Pairwise.nil
  | cons a rest ih =>
      refine List.Pairwise.cons ?_ (ih (fun ev hv => h ev (by simp [hv])))
      intro b hb hc
      exact hc.2 (by rw [h a (by simp), h b (by simp [hb])])

theorem regEvents_pairwise (P : FPath) (c : GoNode) :
    List.Pairwise depthFirstOrder (regEvents P c) :=
  pairwise_const_subject _ c.Path (regEvents_subject P c)

mutual

theorem buildNode_inj : ∀ (hash : String → String) (path : FPath)
    (nm : String) (dep : Nat) (e : Entry), e.uniqueNames = true →
    ∀ x ∈ (buildNode hash path nm dep e).treeNodes,
    ∀ y ∈ (buildNode hash path nm dep e).treeNodes, x.Path = y.Path → x = y
  | hash, path, nm, dep, .symlink t => by
      intro _ x hx y hy _
      simp only [buildNode, GoNode.treeNodes, treeNodesList,
        List.mem_singleton] at hx hy
      rw [hx, hy]
  | hash, path, nm, dep, .file c q => by
      intro _ x hx y hy _
      simp only [buildNode, GoNode.treeNodes, treeNodesList,
        List.mem_singleton] at hx hy
      rw [hx, hy]
  | hash, path, nm, dep, .directory es q => by
      intro hu x hx y hy hxy
      simp only [Entry.uniqueNames, Bool.and_eq_true, decide_eq_true_eq] at hu
      obtain ⟨hnd, hku⟩ := hu
      simp only [buildNode, GoNode.treeNodes, List.mem_cons] at hx hy
      cases hx with
      | inl h1 =>
          cases hy with
          | inl h2 => rw [h1, h2]
          | inr h2 =>
              exfalso
              obtain ⟨⟨nm2, _, hpre⟩, _, _⟩ :=
                buildKids_tree_path hash path dep es y h2
              have hylen := List.IsPrefix.length_le hpre
              have hxp : x.Path = path := by rw [h1]; rfl
              rw [hxp] at hxy
              rw [← hxy] at hylen
              simp at hylen
      | inr h1 =>
          cases hy with
          | inl h2 =>
              exfalso
              obtain ⟨⟨nm2, _, hpre⟩, _, _⟩ :=
                buildKids_tree_path hash path dep es x h1
              have hxlen := List.IsPrefix.length_le hpre
              have hyp : y.Path = path := by rw [h2]; rfl
              rw [hyp] at hxy
              rw [hxy] at hxlen
              simp at hxlen
          | inr h2 => exact buildKids_inj hash path dep es hnd hku x h1 y h2 hxy

theorem buildKids_inj : ∀ (hash : String → String) (path : FPath) (dep : Nat)
    (es : List (String × Entry)), (es.map Prod.fst).Nodup →
    kidsUnique es = true →
    ∀ x ∈ treeNodesList (buildKids hash path dep es),
    ∀ y ∈ treeNodesList (buildKids hash path dep es), x.Path = y.Path → x = y
  | hash, path, dep, [] => by
      intro _ _ x hx
      simp [buildKids, treeNodesList] at hx
  | hash, path, dep, (nm1, e1) :: rest => by
      intro hnd hku x hx y hy hxy
      simp only [kidsUnique, Bool.and_eq_true] at hku
      obtain ⟨hu1, hkr⟩ := hku
      simp only [List.map_cons, List.nodup_cons] at hnd
      obtain ⟨hn1, hndr⟩ := hnd
      simp only [buildKids, treeNodesList, List.mem_append] at hx hy
      cases hx with
      | inl h1 =>
          cases hy with
          | inl h2 =>
              exact buildNode_inj hash (path ++ [nm1]) nm1 (dep + 1) e1 hu1
                x h1 y h2 hxy
          | inr h2 =>
              exfalso
              obtain ⟨hprex, _, _⟩ :=
                buildNode_tree_path hash (path ++ [nm1]) nm1 (dep + 1) e1 x h1
              obtain ⟨⟨nm2, hmem2, hprey⟩, _, _⟩ :=
                buildKids_tree_path hash path dep rest y h2
              rw [hxy] at hprex
              exact hn1 (prefix_snoc_agree path nm1 nm2 y.Path hprex hprey ▸ hmem2)
      | inr h1 =>
          cases hy with
          | inl h2 =>
              exfalso
              obtain ⟨hprey, _, _⟩ :=
                buildNode_tree_path hash (path ++ [nm1]) nm1 (dep + 1) e1 y h2
              obtain ⟨⟨nm2, hmem2, hprex⟩, _, _⟩ :=
                buildKids_tree_path hash path dep rest x h1
              rw [hxy] at hprex
              exact hn1 (prefix_snoc_agree path nm1 nm2 y.Path hprey hprex ▸ hmem2)
          | inr h2 => exact buildKids_inj hash path dep rest hndr hkr x h1 y h2 hxy

end

mutual

theorem addTrace_pairwise : ∀ (hash : String → String) (P : FPath) (dep : Nat)
    (nm : String) (e : Entry), e.uniqueNames = true →
    List.Pairwise depthFirstOrder (addTrace hash P dep nm e)
  | hash, P, dep, nm, .symlink t => by
      intro _
      exact regEvents_pairwise P _
  | hash, P, dep, nm, .file c q => by
      intro _
      exact regEvents_pairwise P _
  | hash, P, dep, nm, .directory es q => by
      intro hu
      simp only [Entry.uniqueNames, Bool.and_eq_true, decide_eq_true_eq] at hu
      obtain ⟨hnd, hku⟩ := hu
      simp only [addTrace, List.pairwise_append]
      refine ⟨walkTrace_pairwise hash (P ++ [nm]) (dep + 1) es hnd hku,
        regEvents_pairwise P _, ?_⟩
      intro a ha b hb
      obtain ⟨nm2, _, hprea⟩ :=
        walkTrace_subject hash (P ++ [nm]) (dep + 1) es a ha
      have hbs := regEvents_subject P _ b hb
      intro hc
      have h1 := List.IsPrefix.length_le hprea
      have h2 := List.IsPrefix.length_le hc.1
      rw [hbs, buildNode_Path] at h2
      simp only [List.length_append, List.length_cons,
        List.length_nil] at h1 h2
      omega

theorem walkTrace_pairwise : ∀ (hash : String → String) (P : FPath) (dep : Nat)
    (es : List (String × Entry)), (es.map Prod.fst).Nodup →
    kidsUnique es = true →
    List.Pairwise depthFirstOrder (walkTrace hash P dep es)
  | hash, P, dep, [] => by
      intro _ _
      simp [walkTrace]
  | hash, P, dep, (nm1, e1) :: rest => by
      intro hnd hku
      simp only [kidsUnique, Bool.and_eq_true] at hku
      obtain ⟨hu1, hkr⟩ := hku
      simp only [List.map_cons, List.nodup_cons] at hnd
      obtain ⟨hn1, hndr⟩ := hnd
      simp only [walkTrace, List.pairwise_append]
      refine ⟨addTrace_pairwise hash P dep nm1 e1 hu1,
        walkTrace_pairwise hash P dep rest hndr hkr, ?_⟩
      intro a ha b hb
      have hprea := addTrace_subject hash P dep nm1 e1 a ha
      obtain ⟨nm2, hmem2, hpreb⟩ := walkTrace_subject hash P dep rest b hb
      intro hc
      have : P ++ [nm1] <+: b.subject := List.IsPrefix.trans hprea hc.1
      exact hn1 (prefix_snoc_agree P nm1 nm2 b.subject this hpreb ▸ hmem2)

end

theorem New_ok_shape (hash : String → String) (path : FPath) (fs : Entry)
    (root : GoNode) (tr : List Event) (h : New hash path fs = .ok (root, tr)) :
    ∃ es q, fs = .directory es q ∧
      root = GoNode.mk path (dirName [(path.getLast?).getD ""])
        ((path.getLast?).getD "") Directory none
        (buildKids hash path 0 es)
        (List.foldl insertFW [] (globalNodes (walkTrace hash path 0 es)))
        0 none ∧
      tr = walkTrace hash path 0 es := by
  cases fs with
  | file c q => simp [New] at h
  | symlink t => simp [New] at h
  | directory es q =>
      refine ⟨es, q, rfl, ?_, ?_⟩
      all_goals
        simp only [New, walk_eq, List.nil_append, Except.ok.injEq,
          Prod.mk.injEq] at h
        obtain ⟨h1, h2⟩ := h
      · exact h1.symm
      · exact h2.symm

theorem built_depth_rel (hash : String → String) (path : FPath) (fs : Entry)
    (root : GoNode) (tr : List Event) (h : New hash path fs = .ok (root, tr)) :
    ∀ m ∈ root.treeNodes, ∀ c ∈ m.Nodes, c.depth = m.depth + 1 := by
  obtain ⟨es, q, _, hroot, _⟩ := New_ok_shape hash path fs root tr h
  subst hroot
  intro m hm
  simp only [GoNode.treeNodes, List.mem_cons] at hm
  cases hm with
  | inl h2 =>
      subst h2
      intro c hc
      simp only [GoNode.Nodes] at hc
      simp only [GoNode.depth]
      exact buildKids_depth hash path 0 es c hc
  | inr h2 =>
      exact fun c hc => (buildKids_inv hash path 0 es m h2).2.2.2.1 c hc

/-- Claim C8: in every constructed tree the root's depth is 0 and every
node's children (as recorded in the snapshot sequence, which holds the
value-copies of exactly the live children) have depth one greater than
their parent's. -/
theorem C8_depth_invariant (hash : String → String) (path : FPath)
    (fs : Entry) (root : GoNode) (tr : List Event)
    (h : New hash path fs = .ok (root, tr)) :
    root.depth = 0 ∧
      ∀ m ∈ root.treeNodes, ∀ c ∈ m.Nodes, c.depth = m.depth + 1 := by
  refine ⟨?_, built_depth_rel hash path fs root tr h⟩
  obtain ⟨es, q, _, hroot, _⟩ := New_ok_shape hash path fs root tr h
  subst hroot
  rfl

/-- Claim C8 witness: the shape above holds on the sample tree `fsA`. -/
theorem C8_depth_invariant_witness :
    New hashId ["r"] fsA = .ok (rootA, trA) ∧
      rootA.depth = 0 ∧
        ∀ m ∈ rootA.treeNodes, ∀ c ∈ m.Nodes, c.depth = m.depth + 1 :=
  ⟨rfl, C8_depth_invariant hashId ["r"] fsA rootA trA rfl⟩

/-- Claim C3: every node of a constructed tree carries one of the three
type tags, its digest is present exactly when the tag is `File`, and a
file child's digest is computed at insertion time, as the hash of the
file's bytes as they are at that moment. -/
theorem C3_type_tags_and_digest (hash : String → String) (path : FPath)
    (fs : Entry) (root : GoNode) (tr : List Event)
    (h : New hash path fs = .ok (root, tr)) :
    (∀ m ∈ root.treeNodes,
      (m.ty = File ∨ m.ty = Directory ∨ m.ty = Symbolic) ∧
      (m.Checksum.isSome ↔ m.ty = File)) ∧
    (∀ (P : FPath) (dep : Nat) (nm content : String) (perm : Nat)
       (rt nt : NodeMap) (ns : List GoNode),
      ∃ c, Node.add hash P dep nm (.file content perm) rt nt ns =
          (insertFW rt c, insertFW nt c, ns ++ [c], regEvents P c) ∧
        c.Checksum = some (hash content)) := by
  obtain ⟨es, q, _, hroot, _⟩ := New_ok_shape hash path fs root tr h
  subst hroot
  constructor
  · intro m hm
    simp only [GoNode.treeNodes, List.mem_cons] at hm
    cases hm with
    | inl h2 =>
        subst h2
        refine ⟨Or.inr (Or.inl rfl), ?_⟩
        simp [GoNode.Checksum, GoNode.ty, File, Directory]
    | inr h2 =>
        obtain ⟨ha, hb, _⟩ := buildKids_inv hash path 0 es m h2
        exact ⟨ha, hb⟩
  · intro P dep nm content perm rt nt ns
    exact ⟨buildNode hash (P ++ [nm]) nm (dep + 1) (.file content perm),
      rfl, rfl⟩

/-- Claim C3 witness: instantiated on the sample tree `fsA` and a
concrete file insertion. -/
theorem C3_type_tags_and_digest_witness :
    New hashId ["r"] fsA = .ok (rootA, trA) ∧
      (∀ m ∈ rootA.treeNodes,
        (m.ty = File ∨ m.ty = Directory ∨ m.ty = Symbolic) ∧
        (m.Checksum.isSome ↔ m.ty = File)) ∧
      ∃ c, Node.add hashId ["r"] 0 "a.txt" (.file "hi" 420) [] [] [] =
          (insertFW [] c, insertFW [] c, [c], regEvents ["r"] c) ∧
        c.Checksum = some (hashId "hi") := by
  have hmain := C3_type_tags_and_digest hashId ["r"] fsA rootA trA rfl
  exact ⟨rfl, hmain.1, hmain.2 ["r"] 0 "a.txt" "hi" 420 [] [] []⟩

/-- Claim C9: a symbolic-link entry yields a node tagged `Symbolic`
with no digest, no children and no recursion (its registration is its
entire event contribution), and the built node does not depend on the
link's target; tree-wide, every `Symbolic` node has no digest and an
empty subtree. -/
theorem C9_symlink_not_followed (hash : String → String) (path : FPath)
    (fs : Entry) (root : GoNode) (tr : List Event)
    (h : New hash path fs = .ok (root, tr)) :
    (∀ m ∈ root.treeNodes, m.ty = Symbolic →
      m.Checksum = none ∧ m.Nodes = [] ∧ m.table = []) ∧
    (∀ (P : FPath) (dep : Nat) (nm target : String) (rt nt : NodeMap)
       (ns : List GoNode),
      Node.add hash P dep nm (.symlink target) rt nt ns =
        (insertFW rt
            (.mk (P ++ [nm]) (dirName (P ++ [nm])) nm Symbolic none [] []
              (dep + 1) none),
         insertFW nt
            (.mk (P ++ [nm]) (dirName (P ++ [nm])) nm Symbolic none [] []
              (dep + 1) none),
         ns ++
            [.mk (P ++ [nm]) (dirName (P ++ [nm])) nm Symbolic none [] []
              (dep + 1) none],
         regEvents P
            (.mk (P ++ [nm]) (dirName (P ++ [nm])) nm Symbolic none [] []
              (dep + 1) none))) := by
  obtain ⟨es, q, _, hroot, _⟩ := New_ok_shape hash path fs root tr h
  subst hroot
  constructor
  · intro m hm hsym
    simp only [GoNode.treeNodes, List.mem_cons] at hm
    cases hm with
    | inl h2 =>
        subst h2
        simp only [GoNode.ty, Directory, Symbolic] at hsym
        exact absurd hsym (by decide)
    | inr h2 =>
        obtain ⟨_, hiff, hsub, _, _⟩ := buildKids_inv hash path 0 es m h2
        refine ⟨?_, hsub hsym⟩
        cases hcs : m.Checksum with
        | none => rfl
        | some v =>
            have : m.ty = File := hiff.mp (by simp [hcs])
            rw [hsym] at this
            exact absurd this (by decide)
  · intro P dep nm target rt nt ns
    rfl

/-- Claim C9 witness: instantiated on the sample tree `fsA` and a
concrete symbolic-link insertion. -/
theorem C9_symlink_not_followed_witness :
    New hashId ["r"] fsA = .ok (rootA, trA) ∧
      (∀ m ∈ rootA.treeNodes, m.ty = Symbolic →
        m.Checksum = none ∧ m.Nodes = [] ∧ m.table = []) ∧
      Node.add hashId ["r"] 0 "ln" (.symlink "anywhere") [] [] [] =
        (insertFW [] (.mk ["r", "ln"] ["r"] "ln" Symbolic none [] [] 1 none),
         insertFW [] (.mk ["r", "ln"] ["r"] "ln" Symbolic none [] [] 1 none),
         [.mk ["r", "ln"] ["r"] "ln" Symbolic none [] [] 1 none],
         regEvents ["r"]
           (.mk ["r", "ln"] ["r"] "ln" Symbolic none [] [] 1 none)) := by
  have hmain := C9_symlink_not_followed hashId ["r"] fsA rootA trA rfl
  exact ⟨rfl, hmain.1, hmain.2 ["r"] 0 "ln" "anywhere" [] [] []⟩

/-- Claim C1: during construction, a directory child's entire subtree —
all of its global-index registrations, local-index registrations and
snapshot appends — is completed before the child itself is registered
into its parent's local index, the root's global index, or the parent's
snapshot sequence: in the construction trace, no event ever registers a
strict descendant of a node registered by an earlier event. -/
theorem C1_subtree_before_registration (hash : String → String)
    (path : FPath) (fs : Entry) (root : GoNode) (tr : List Event)
    (hu : fs.uniqueNames = true) (h : New hash path fs = .ok (root, tr)) :
    List.Pairwise depthFirstOrder tr := by
  obtain ⟨es, q, hfs, _, htr⟩ := New_ok_shape hash path fs root tr h
  subst hfs
  subst htr
  simp only [Entry.uniqueNames, Bool.and_eq_true, decide_eq_true_eq] at hu
  exact walkTrace_pairwise hash path 0 es hu.1 hu.2

/-- Claim C1 witness: the trace of the sample tree `fsA` is depth-first
ordered. -/
theorem C1_subtree_before_registration_witness :
    fsA.uniqueNames = true ∧ New hashId ["r"] fsA = .ok (rootA, trA) ∧
      List.Pairwise depthFirstOrder trA :=
  ⟨by decide, rfl,
    C1_subtree_before_registration hashId ["r"] fsA rootA trA (by decide) rfl⟩

theorem lookupT_nil (p : FPath) : lookupT [] p = none := rfl

theorem GoNode.Path_mk (p d : FPath) (nm t : String) (c : Option String)
    (ns tbl : List GoNode) (dep : Nat) (co : Option String) :
    (GoNode.mk p d nm t c ns tbl dep co).Path = p := rfl

theorem GoNode.table_mk (p d : FPath) (nm t : String) (c : Option String)
    (ns tbl : List GoNode) (dep : Nat) (co : Option String) :
    (GoNode.mk p d nm t c ns tbl dep co).table = tbl := rfl

theorem mem_treeNodes_of_mem_Nodes (m c : GoNode) (hc : c ∈ m.Nodes) :
    c ∈ m.treeNodes := by
  cases m with
  | mk p d nm t cs ns tbl dep co =>
      simp only [GoNode.Nodes] at hc
      simp only [GoNode.treeNodes, List.mem_cons]
      exact Or.inr (mem_treeNodesList_of_mem ns c hc)

theorem built_paths_present (hash : String → String) (path : FPath)
    (fs : Entry) (root : GoNode) (tr : List Event)
    (h : New hash path fs = .ok (root, tr)) :
    ∀ m ∈ root.treeNodes, m.Path ≠ root.Path →
      lookupT root.table m.Path ≠ none := by
  obtain ⟨es, q, _, hroot, _⟩ := New_ok_shape hash path fs root tr h
  subst hroot
  intro m hm hne
  simp only [GoNode.treeNodes, List.mem_cons] at hm
  cases hm with
  | inl h2 => exact absurd (by rw [h2]) hne
  | inr h2 =>
      simp only [GoNode.table, lookupT_foldl, lookupT_nil]
      intro hnone
      rw [List.find?_eq_none] at hnone
      exact hnone m ((mem_globals_walkTrace hash path 0 es m).mpr h2) (by simp)

/-- Claim C10: the root's own path is never a key of the global index:
`Map()` lookup of the root's path fails, while the path of every other
node of the tree is present. -/
theorem C10_root_absent_from_map (hash : String → String) (path : FPath)
    (fs : Entry) (root : GoNode) (tr : List Event)
    (h : New hash path fs = .ok (root, tr)) :
    lookupT (GoNode.MapOf root root) root.Path = none ∧
      ∀ m ∈ root.treeNodes, m.Path ≠ root.Path →
        lookupT (GoNode.MapOf root root) m.Path ≠ none := by
  have hpresent := built_paths_present hash path fs root tr h
  obtain ⟨es, q, _, hroot, _⟩ := New_ok_shape hash path fs root tr h
  subst hroot
  have hmap : GoNode.MapOf
      (GoNode.mk path (dirName [(path.getLast?).getD ""])
        ((path.getLast?).getD "") Directory none
        (buildKids hash path 0 es)
        (List.foldl insertFW [] (globalNodes (walkTrace hash path 0 es)))
        0 none)
      (GoNode.mk path (dirName [(path.getLast?).getD ""])
        ((path.getLast?).getD "") Directory none
        (buildKids hash path 0 es)
        (List.foldl insertFW [] (globalNodes (walkTrace hash path 0 es)))
        0 none) =
      (GoNode.mk path (dirName [(path.getLast?).getD ""])
        ((path.getLast?).getD "") Directory none
        (buildKids hash path 0 es)
        (List.foldl insertFW [] (globalNodes (walkTrace hash path 0 es)))
        0 none).table := rfl
  rw [hmap]
  constructor
  · simp only [GoNode.table_mk, GoNode.Path_mk, lookupT_foldl, lookupT_nil]
    rw [List.find?_eq_none]
    intro x hx
    have hx2 := (mem_globals_walkTrace hash path 0 es x).mp hx
    obtain ⟨⟨nm2, _, hpre⟩, _, _⟩ := buildKids_tree_path hash path 0 es x hx2
    have hlen := List.IsPrefix.length_le hpre
    simp only [List.length_append, List.length_cons, List.length_nil] at hlen
    simp only [beq_iff_eq]
    intro heq
    rw [heq] at hlen
    omega
  · exact hpresent

/-- Claim C10 witness: on the sample tree, looking up the root's path
in the global index fails while a grandchild's path is present. -/
theorem C10_root_absent_from_map_witness :
    New hashId ["r"] fsA = .ok (rootA, trA) ∧
      lookupT (GoNode.MapOf rootA rootA) rootA.Path = none ∧
      lookupT (GoNode.MapOf rootA rootA)
        ((rootA.treeNodes.get ⟨3, by decide⟩).Path) ≠ none := by
  have hmain := C10_root_absent_from_map hashId ["r"] fsA rootA trA rfl
  exact ⟨rfl, hmain.1,
    hmain.2 (rootA.treeNodes.get ⟨3, by decide⟩)
      (List.get_mem rootA.treeNodes 3 (by decide)) (by decide)⟩

/-- Claim C7: `Map()` returns the root-owned global index no matter
which tree node it is called from; that index holds an entry for the
path of every node inserted anywhere under the root; and it maps each
path to the first node registered with it (first writer wins). -/
theorem C7_map_is_root_scoped (hash : String → String) (path : FPath)
    (fs : Entry) (root : GoNode) (tr : List Event)
    (hu : fs.uniqueNames = true) (h : New hash path fs = .ok (root, tr)) :
    (∀ n ∈ root.treeNodes, GoNode.MapOf root n = root.table) ∧
    (∀ n ∈ root.treeNodes, n.Path ≠ root.Path →
      lookupT root.table n.Path ≠ none) ∧
    (∀ p, lookupT root.table p =
      (globalNodes tr).find? (fun m => m.Path == p)) := by
  have hpresent := built_paths_present hash path fs root tr h
  have hdeprel := built_depth_rel hash path fs root tr h
  obtain ⟨es, q, hfs, hroot, htr⟩ := New_ok_shape hash path fs root tr h
  subst hfs
  simp only [Entry.uniqueNames, Bool.and_eq_true, decide_eq_true_eq] at hu
  obtain ⟨hnd, hku⟩ := hu
  refine ⟨?_, hpresent, ?_⟩
  · subst hroot
    set rootN : GoNode := GoNode.mk path (dirName [(path.getLast?).getD ""])
        ((path.getLast?).getD "") Directory none
        (buildKids hash path 0 es)
        (List.foldl insertFW [] (globalNodes (walkTrace hash path 0 es)))
        0 none with hrootN
    have htreeN : rootN.treeNodes =
        rootN :: treeNodesList (buildKids hash path 0 es) := rfl
    have hkidfacts := buildKids_tree_path hash path 0 es
    have hinj : ∀ x ∈ rootN.treeNodes, ∀ y ∈ rootN.treeNodes,
        x.Path = y.Path → x = y := by
      intro x hx y hy hxy
      rw [htreeN, List.mem_cons] at hx hy
      cases hx with
      | inl h1 =>
          cases hy with
          | inl h2 => rw [h1, h2]
          | inr h2 =>
              exfalso
              obtain ⟨⟨nm2, _, hpre⟩, _, _⟩ := hkidfacts y h2
              have hlen := List.IsPrefix.length_le hpre
              have hxp : x.Path = path := by rw [h1]; rfl
              rw [hxp] at hxy
              rw [← hxy] at hlen
              simp at hlen
      | inr h1 =>
          cases hy with
          | inl h2 =>
              exfalso
              obtain ⟨⟨nm2, _, hpre⟩, _, _⟩ := hkidfacts x h1
              have hlen := List.IsPrefix.length_le hpre
              have hyp : y.Path = path := by rw [h2]; rfl
              rw [hyp] at hxy
              rw [hxy] at hlen
              simp at hlen
          | inr h2 => exact buildKids_inj hash path 0 es hnd hku x h1 y h2 hxy
    have hclosure : ∀ m ∈ rootN.treeNodes, ∀ c ∈ m.Nodes,
        c ∈ rootN.treeNodes := by
      intro m hm c hc
      exact treeNodes_trans rootN m hm c (mem_treeNodes_of_mem_Nodes m c hc)
    have hdepth0 : ∀ x ∈ rootN.treeNodes, x.depth = 0 → x = rootN := by
      intro x hx hd
      rw [htreeN, List.mem_cons] at hx
      cases hx with
      | inl h1 => exact h1
      | inr h1 =>
          obtain ⟨_, _, hge⟩ := hkidfacts x h1
          omega
    have key : ∀ k, ∀ n2 ∈ rootN.treeNodes, n2.depth = k →
        RootAux rootN k n2 = rootN := by
      intro k
      induction k with
      | zero =>
          intro n2 hn2 hd
          exact hdepth0 n2 hn2 hd
      | succ k ih =>
          intro n2 hn2 hd
          have hne : n2 ≠ rootN := by
            intro hc
            rw [hc] at hd
            simp only [hrootN, GoNode.depth] at hd
            cases hd
          have hpar : ∃ m ∈ rootN.treeNodes, n2 ∈ m.Nodes := by
            cases parent_exists rootN n2 hn2 with
            | inl hc => exact absurd hc hne
            | inr hc => exact hc
          obtain ⟨m, hm, hnm⟩ := hpar
          have hsome : (parentIn rootN n2).isSome := by
            unfold parentIn
            rw [List.find?_isSome]
            refine ⟨m, hm, ?_⟩
            rw [List.any_eq_true]
            exact ⟨n2, hnm, by simp⟩
          obtain ⟨m2, hfind⟩ := Option.isSome_iff_exists.mp hsome
          have hm2mem : m2 ∈ rootN.treeNodes :=
            List.mem_of_find?_eq_some hfind
          have hm2pred := List.find?_some hfind
          rw [List.any_eq_true] at hm2pred
          obtain ⟨x, hxm2, hxbeq⟩ := hm2pred
          have hxpath : x.Path = n2.Path := by simpa using hxbeq
          have hx2 : x ∈ rootN.treeNodes := hclosure m2 hm2mem x hxm2
          have hxeq : x = n2 := hinj x hx2 n2 hn2 hxpath
          subst hxeq
          have hd2 : x.depth = m2.depth + 1 := hdeprel m2 hm2mem x hxm2
          have hm2d : m2.depth = k := by omega
          have : RootAux rootN (k + 1) x = RootAux rootN k m2 := by
            simp only [RootAux, hfind]
          rw [this]
          exact ih m2 hm2mem hm2d
    intro n hn
    unfold GoNode.MapOf GoNode.RootOf
    rw [key n.depth n hn rfl]
  · subst hroot
    subst htr
    intro p
    simp only [GoNode.table_mk, lookupT_foldl, lookupT_nil]

/-- Claim C7 witness: on the sample tree, `Map()` from the root agrees
with the global table, a grandchild's path is present, and lookups
follow first-registration order. -/
theorem C7_map_is_root_scoped_witness :
    fsA.uniqueNames = true ∧ New hashId ["r"] fsA = .ok (rootA, trA) ∧
      GoNode.MapOf rootA rootA = rootA.table ∧
      lookupT rootA.table ["r", "b", "c.txt"] ≠ none ∧
      lookupT rootA.table ["r", "b"] =
        (globalNodes trA).find? (fun m => m.Path == ["r", "b"]) := by
  have hmain := C7_map_is_root_scoped hashId ["r"] fsA rootA trA (by decide) rfl
  refine ⟨by decide, rfl, hmain.1 rootA (mem_treeNodes_self rootA), ?_, hmain.2.2 ["r", "b"]⟩
  exact hmain.2.1 (rootA.treeNodes.get ⟨3, by decide⟩)
    (List.get_mem rootA.treeNodes 3 (by decide)) (by decide)

theorem find?_map_set (l : List (FPath × FsObj)) (p : FPath) (o : FsObj)
    (h : l.any (fun x => x.1 == p) = true) :
    (l.map (fun x => if x.1 == p then (p, o) else x)).find?
      (fun x => x.1 == p) = some (p, o) := by
  induction l with
  | nil => cases h
  | cons x xs ih =>
      cases hx : (x.1 == p) with
      | true =>
          simp only [List.map_cons, hx, if_true]
          rw [List.find?_cons]
          simp
      | false =>
          simp only [List.any_cons, hx, Bool.false_or] at h
          simp only [List.map_cons, hx, Bool.false_eq_true, if_false]
          rw [List.find?_cons]
          simp only [hx]
          exact ih h

theorem find?_map_set_ne (l : List (FPath × FsObj)) (p : FPath) (o : FsObj)
    (q : FPath) (h : q ≠ p) :
    (l.map (fun x => if x.1 == p then (p, o) else x)).find?
      (fun x => x.1 == q) = l.find? (fun x => x.1 == q) := by
  induction l with
  | nil => rfl
  | cons x xs ih =>
      cases hx : (x.1 == p) with
      | true =>
          have hx2 : x.1 = p := by simpa using hx
          have hpq : (p == q) = false := by
            simp only [beq_eq_false_iff_ne]
            exact fun hc => h hc.symm
          have hxq : (x.1 == q) = false := by rw [hx2]; exact hpq
          simp only [List.map_cons, hx, if_true, List.find?_cons, hpq, hxq]
          exact ih
      | false =>
          simp only [List.map_cons, hx, Bool.false_eq_true, if_false]
          rw [List.find?_cons, List.find?_cons]
          cases hq : (x.1 == q) with
          | true => simp [hq]
          | false => simp only [hq]; exact ih

theorem lookup_eq_none_of_any_false (l : List (FPath × FsObj)) (p : FPath)
    (h : l.any (fun x => x.1 == p) = false) :
    l.find? (fun x => x.1 == p) = none := by
  rw [List.find?_eq_none]
  intro x hx
  rw [List.any_eq_false] at h
  exact fun hc => h x hx hc

theorem setObj_lookup_self (d : Dest) (p : FPath) (o : FsObj) :
    (d.setObj p o).lookup p = some o := by
  unfold Dest.setObj Dest.lookup
  by_cases hany : d.objs.any (fun x => x.1 == p) = true
  · simp only [hany, if_true, find?_map_set d.objs p o hany]
    rfl
  · simp only [Bool.not_eq_true] at hany
    simp only [hany, Bool.false_eq_true, if_false, List.find?_append,
      lookup_eq_none_of_any_false d.objs p hany, Option.none_or,
      List.find?_cons, beq_self_eq_true]
    rfl

theorem setObj_lookup_ne (d : Dest) (p : FPath) (o : FsObj) (q : FPath)
    (h : q ≠ p) : (d.setObj p o).lookup q = d.lookup q := by
  unfold Dest.setObj Dest.lookup
  by_cases hany : d.objs.any (fun x => x.1 == p) = true
  · simp only [hany, if_true, find?_map_set_ne d.objs p o q h]
  · simp only [Bool.not_eq_true] at hany
    have hpq : (p == q) = false := by
      simp only [beq_eq_false_iff_ne]
      exact fun hc => h hc.symm
    simp only [hany, Bool.false_eq_true, if_false, List.find?_append,
      List.find?_cons, hpq, List.find?_nil, Option.or_none]

theorem setObj_statFail (d : Dest) (p : FPath) (o : FsObj) :
    (d.setObj p o).statFail = d.statFail := by
  unfold Dest.setObj
  by_cases hany : d.objs.any (fun x => x.1 == p) = true
  · simp [hany]
  · simp only [Bool.not_eq_true] at hany
    simp [hany]

theorem stat_found_iff (d : Dest) (p : FPath) (o : FsObj) :
    d.stat p = .found o ↔ (p ∉ d.statFail ∧ d.lookup p = some o) := by
  unfold Dest.stat
  by_cases hmem : p ∈ d.statFail
  · simp [hmem]
  · cases hl : d.lookup p with
    | some o2 => simp [hmem, hl]
    | none => simp [hmem, hl]

theorem stat_notExist_iff (d : Dest) (p : FPath) :
    d.stat p = .notExist ↔ (p ∉ d.statFail ∧ d.lookup p = none) := by
  unfold Dest.stat
  by_cases hmem : p ∈ d.statFail
  · simp [hmem]
  · cases hl : d.lookup p with
    | some o2 => simp [hmem, hl]
    | none => simp [hmem, hl]

theorem stat_failure_iff (d : Dest) (p : FPath) :
    d.stat p = .failure ↔ p ∈ d.statFail := by
  unfold Dest.stat
  by_cases hmem : p ∈ d.statFail
  · simp [hmem]
  · cases hl : d.lookup p with
    | some o2 => simp [hmem, hl]
    | none => simp [hmem, hl]

theorem writeFile_ok_self (d : Dest) (p : FPath) (c : String) (pm : Nat)
    (d2 : Dest) (h : d.writeFile p c pm = .ok d2) :
    ∃ pm2, d2.lookup p = some (.fileObj c pm2) := by
  unfold Dest.writeFile at h
  cases hl : d.lookup p with
  | some o =>
      cases o with
      | fileObj b0 p0 =>
          rw [hl] at h
          simp only [Except.ok.injEq] at h
          exact ⟨p0, h ▸ setObj_lookup_self d p _⟩
      | dirObj p0 => rw [hl] at h; cases h
  | none =>
      rw [hl] at h
      simp only [Except.ok.injEq] at h
      exact ⟨pm, h ▸ setObj_lookup_self d p _⟩

theorem writeFile_ok_ne (d : Dest) (p : FPath) (c : String) (pm : Nat)
    (d2 : Dest) (q : FPath) (hq : q ≠ p)
    (h : d.writeFile p c pm = .ok d2) : d2.lookup q = d.lookup q := by
  unfold Dest.writeFile at h
  cases hl : d.lookup p with
  | some o =>
      cases o with
      | fileObj b0 p0 =>
          rw [hl] at h
          simp only [Except.ok.injEq] at h
          exact h ▸ setObj_lookup_ne d p _ q hq
      | dirObj p0 => rw [hl] at h; cases h
  | none =>
      rw [hl] at h
      simp only [Except.ok.injEq] at h
      exact h ▸ setObj_lookup_ne d p _ q hq

theorem writeFile_error (d : Dest) (p : FPath) (c : String) (pm : Nat)
    (e : Exception) (h : d.writeFile p c pm = .error e) : e = .Panic := by
  unfold Dest.writeFile at h
  cases hl : d.lookup p with
  | some o =>
      cases o with
      | fileObj b0 p0 => rw [hl] at h; cases h
      | dirObj p0 => rw [hl] at h; cases h; rfl
  | none => rw [hl] at h; cases h

theorem writeFile_statFail (d : Dest) (p : FPath) (c : String) (pm : Nat)
    (d2 : Dest) (h : d.writeFile p c pm = .ok d2) :
    d2.statFail = d.statFail := by
  unfold Dest.writeFile at h
  cases hl : d.lookup p with
  | some o =>
      cases o with
      | fileObj b0 p0 =>
          rw [hl] at h
          simp only [Except.ok.injEq] at h
          exact h ▸ setObj_statFail d p _
      | dirObj p0 => rw [hl] at h; cases h
  | none =>
      rw [hl] at h
      simp only [Except.ok.injEq] at h
      exact h ▸ setObj_statFail d p _

theorem mkdir1_preserve (d : Dest) (p : FPath) (pm : Nat) (d2 : Dest)
    (q : FPath) (o : FsObj) (hq : d.lookup q = some o)
    (h : d.mkdir1 p pm = .ok d2) : d2.lookup q = some o := by
  unfold Dest.mkdir1 at h
  cases hs : d.stat p with
  | found o2 =>
      cases o2 with
      | dirObj p0 =>
          rw [hs] at h
          simp only [Except.ok.injEq] at h
          exact h ▸ hq
      | fileObj b0 p0 => rw [hs] at h; cases h
  | notExist =>
      rw [hs] at h
      simp only [Except.ok.injEq] at h
      have hl := (stat_notExist_iff d p).mp hs
      have hne : q ≠ p := by
        intro hc
        rw [hc] at hq
        rw [hq] at hl
        cases hl.2
      rw [← h, setObj_lookup_ne d p _ q hne]
      exact hq
  | failure => rw [hs] at h; cases h

theorem mkdir1_creates (d : Dest) (p : FPath) (pm : Nat) (d2 : Dest)
    (q : FPath) (hq : d.lookup q = none) (hq2 : d2.lookup q ≠ none)
    (h : d.mkdir1 p pm = .ok d2) : q = p := by
  unfold Dest.mkdir1 at h
  cases hs : d.stat p with
  | found o2 =>
      cases o2 with
      | dirObj p0 =>
          rw [hs] at h
          simp only [Except.ok.injEq] at h
          exact absurd (h ▸ hq) hq2
      | fileObj b0 p0 => rw [hs] at h; cases h
  | notExist =>
      rw [hs] at h
      simp only [Except.ok.injEq] at h
      by_cases hqp : q = p
      · exact hqp
      · rw [← h, setObj_lookup_ne d p _ q hqp] at hq2
        exact absurd hq hq2
  | failure => rw [hs] at h; cases h

theorem mkdir1_self (d : Dest) (p : FPath) (pm : Nat) (d2 : Dest)
    (h : d.mkdir1 p pm = .ok d2) :
    ∃ pm2, d2.lookup p = some (.dirObj pm2) := by
  unfold Dest.mkdir1 at h
  cases hs : d.stat p with
  | found o2 =>
      cases o2 with
      | dirObj p0 =>
          rw [hs] at h
          simp only [Except.ok.injEq] at h
          exact ⟨p0, h ▸ ((stat_found_iff d p _).mp hs).2⟩
      | fileObj b0 p0 => rw [hs] at h; cases h
  | notExist =>
      rw [hs] at h
      simp only [Except.ok.injEq] at h
      exact ⟨pm, h ▸ setObj_lookup_self d p _⟩
  | failure => rw [hs] at h; cases h

theorem mkdir1_error (d : Dest) (p : FPath) (pm : Nat) (e : Exception)
    (h : d.mkdir1 p pm = .error e) : e = .Panic := by
  unfold Dest.mkdir1 at h
  cases hs : d.stat p with
  | found o2 =>
      cases o2 with
      | dirObj p0 => rw [hs] at h; cases h
      | fileObj b0 p0 => rw [hs] at h; cases h; rfl
  | notExist => rw [hs] at h; cases h
  | failure => rw [hs] at h; cases h; rfl

theorem mkdir1_statFail (d : Dest) (p : FPath) (pm : Nat) (d2 : Dest)
    (h : d.mkdir1 p pm = .ok d2) : d2.statFail = d.statFail := by
  unfold Dest.mkdir1 at h
  cases hs : d.stat p with
  | found o2 =>
      cases o2 with
      | dirObj p0 =>
          rw [hs] at h
          simp only [Except.ok.injEq] at h
          rw [← h]
      | fileObj b0 p0 => rw [hs] at h; cases h
  | notExist =>
      rw [hs] at h
      simp only [Except.ok.injEq] at h
      exact h ▸ setObj_statFail d p _
  | failure => rw [hs] at h; cases h

theorem mkdirAllAux_preserve (L : List FPath) (perm : Nat) (d d2 : Dest)
    (q : FPath) (o : FsObj) (hq : d.lookup q = some o)
    (h : mkdirAllAux perm d L = .ok d2) : d2.lookup q = some o := by
  induction L generalizing d with
  | nil =>
      unfold mkdirAllAux at h
      simp only [Except.ok.injEq] at h
      exact h ▸ hq
  | cons x xs ih =>
      unfold mkdirAllAux at h
      cases hm : d.mkdir1 x perm with
      | error e => rw [hm] at h; cases h
      | ok d3 =>
          rw [hm] at h
          exact ih d3 (mkdir1_preserve d x perm d3 q o hq hm) h

theorem mkdirAllAux_creates (L : List FPath) (perm : Nat) (d d2 : Dest)
    (q : FPath) (hq : d.lookup q = none) (hq2 : d2.lookup q ≠ none)
    (h : mkdirAllAux perm d L = .ok d2) : q ∈ L := by
  induction L generalizing d with
  | nil =>
      unfold mkdirAllAux at h
      simp only [Except.ok.injEq] at h
      exact absurd (h ▸ hq) hq2
  | cons x xs ih =>
      unfold mkdirAllAux at h
      cases hm : d.mkdir1 x perm with
      | error e => rw [hm] at h; cases h
      | ok d3 =>
          rw [hm] at h
          cases hl : d3.lookup q with
          | none => exact List.mem_cons_of_mem x (ih d3 hl h)
          | some o =>
              have := mkdir1_creates d x perm d3 q hq (by rw [hl]; intro hc; cases hc) hm
              exact this ▸ List.mem_cons_self _ _

theorem mkdirAllAux_all (L : List FPath) (perm : Nat) (d d2 : Dest)
    (h : mkdirAllAux perm d L = .ok d2) :
    ∀ q ∈ L, ∃ pm2, d2.lookup q = some (.dirObj pm2) := by
  induction L generalizing d with
  | nil => simp
  | cons x xs ih =>
      unfold mkdirAllAux at h
      cases hm : d.mkdir1 x perm with
      | error e => rw [hm] at h; cases h
      | ok d3 =>
          rw [hm] at h
          intro q hq
          cases List.mem_cons.mp hq with
          | inl h2 =>
              subst h2
              obtain ⟨pm2, hpm2⟩ := mkdir1_self d q perm d3 hm
              exact ⟨pm2, mkdirAllAux_preserve xs perm d3 d2 q _ hpm2 h⟩
          | inr h2 => exact ih d3 h q h2

theorem mkdirAllAux_error (L : List FPath) (perm : Nat) (d : Dest)
    (e : Exception) (h : mkdirAllAux perm d L = .error e) : e = .Panic := by
  induction L generalizing d with
  | nil => unfold mkdirAllAux at h; cases h
  | cons x xs ih =>
      unfold mkdirAllAux at h
      cases hm : d.mkdir1 x perm with
      | error e2 =>
          rw [hm] at h
          cases h
          exact mkdir1_error d x perm e hm
      | ok d3 =>
          rw [hm] at h
          exact ih d3 h

theorem mkdirAllAux_statFail (L : List FPath) (perm : Nat) (d d2 : Dest)
    (h : mkdirAllAux perm d L = .ok d2) : d2.statFail = d.statFail := by
  induction L generalizing d with
  | nil =>
      unfold mkdirAllAux at h
      simp only [Except.ok.injEq] at h
      rw [h]
  | cons x xs ih =>
      unfold mkdirAllAux at h
      cases hm : d.mkdir1 x perm with
      | error e => rw [hm] at h; cases h
      | ok d3 =>
          rw [hm] at h
          rw [ih d3 h, mkdir1_statFail d x perm d3 hm]

theorem mkdirAll_preserve (d : Dest) (p : FPath) (perm : Nat) (d2 : Dest)
    (q : FPath) (o : FsObj) (hq : d.lookup q = some o)
    (h : d.mkdirAll p perm = .ok d2) : d2.lookup q = some o := by
  unfold Dest.mkdirAll at h
  cases hs : d.stat p with
  | found o2 =>
      cases o2 with
      | dirObj p0 =>
          rw [hs] at h
          simp only [Except.ok.injEq] at h
          exact h ▸ hq
      | fileObj b0 p0 => rw [hs] at h; cases h
  | notExist =>
      rw [hs] at h
      by_cases hp : p = []
      · simp only [hp, if_true] at h; cases h
      · simp only [hp, if_false] at h
        exact mkdirAllAux_preserve _ perm d d2 q o hq h
  | failure =>
      rw [hs] at h
      by_cases hp : p = []
      · simp only [hp, if_true] at h; cases h
      · simp only [hp, if_false] at h
        exact mkdirAllAux_preserve _ perm d d2 q o hq h

theorem mkdirAll_creates (d : Dest) (p : FPath) (perm : Nat) (d2 : Dest)
    (q : FPath) (hq : d.lookup q = none) (hq2 : d2.lookup q ≠ none)
    (h : d.mkdirAll p perm = .ok d2) : q <+: p := by
  unfold Dest.mkdirAll at h
  cases hs : d.stat p with
  | found o2 =>
      cases o2 with
      | dirObj p0 =>
          rw [hs] at h
          simp only [Except.ok.injEq] at h
          exact absurd (h ▸ hq) hq2
      | fileObj b0 p0 => rw [hs] at h; cases h
  | notExist =>
      rw [hs] at h
      by_cases hp : p = []
      · simp only [hp, if_true] at h; cases h
      · simp only [hp, if_false] at h
        have hmem := mkdirAllAux_creates _ perm d d2 q hq hq2 h
        simp only [List.mem_map, List.mem_range] at hmem
        obtain ⟨i, _, hi⟩ := hmem
        exact hi ▸ List.take_prefix (i + 1) p
  | failure =>
      rw [hs] at h
      by_cases hp : p = []
      · simp only [hp, if_true] at h; cases h
      · simp only [hp, if_false] at h
        have hmem := mkdirAllAux_creates _ perm d d2 q hq hq2 h
        simp only [List.mem_map, List.mem_range] at hmem
        obtain ⟨i, _, hi⟩ := hmem
        exact hi ▸ List.take_prefix (i + 1) p

theorem mkdirAll_self (d : Dest) (p : FPath) (perm : Nat) (d2 : Dest)
    (h : d.mkdirAll p perm = .ok d2) :
    ∃ pm2, d2.lookup p = some (.dirObj pm2) := by
  unfold Dest.mkdirAll at h
  cases hs : d.stat p with
  | found o2 =>
      cases o2 with
      | dirObj p0 =>
          rw [hs] at h
          simp only [Except.ok.injEq] at h
          exact ⟨p0, h ▸ ((stat_found_iff d p _).mp hs).2⟩
      | fileObj b0 p0 => rw [hs] at h; cases h
  | notExist =>
      rw [hs] at h
      by_cases hp : p = []
      · simp only [hp, if_true] at h; cases h
      · simp only [hp, if_false] at h
        refine mkdirAllAux_all _ perm d d2 h p ?_
        simp only [List.mem_map, List.mem_range]
        refine ⟨p.length - 1, ?_, ?_⟩
        · have : p.length ≠ 0 := by
            intro hc
            exact hp (List.length_eq_zero.mp hc)
          omega
        · have : p.length - 1 + 1 = p.length := by
            have : p.length ≠ 0 := by
              intro hc
              exact hp (List.length_eq_zero.mp hc)
            omega
          rw [this, List.take_length]
  | failure =>
      rw [hs] at h
      by_cases hp : p = []
      · simp only [hp, if_true] at h; cases h
      · simp only [hp, if_false] at h
        refine mkdirAllAux_all _ perm d d2 h p ?_
        simp only [List.mem_map, List.mem_range]
        refine ⟨p.length - 1, ?_, ?_⟩
        · have : p.length ≠ 0 := by
            intro hc
            exact hp (List.length_eq_zero.mp hc)
          omega
        · have : p.length - 1 + 1 = p.length := by
            have : p.length ≠ 0 := by
              intro hc
              exact hp (List.length_eq_zero.mp hc)
            omega
          rw [this, List.take_length]

theorem mkdirAll_error (d : Dest) (p : FPath) (perm : Nat) (e : Exception)
    (h : d.mkdirAll p perm = .error e) : e = .Panic := by
  unfold Dest.mkdirAll at h
  cases hs : d.stat p with
  | found o2 =>
      cases o2 with
      | dirObj p0 => rw [hs] at h; cases h
      | fileObj b0 p0 => rw [hs] at h; cases h; rfl
  | notExist =>
      rw [hs] at h
      by_cases hp : p = []
      · simp only [hp, if_true] at h; cases h; rfl
      · simp only [hp, if_false] at h
        exact mkdirAllAux_error _ perm d e h
  | failure =>
      rw [hs] at h
      by_cases hp : p = []
      · simp only [hp, if_true] at h; cases h; rfl
      · simp only [hp, if_false] at h
        exact mkdirAllAux_error _ perm d e h

theorem mkdirAll_statFail (d : Dest) (p : FPath) (perm : Nat) (d2 : Dest)
    (h : d.mkdirAll p perm = .ok d2) : d2.statFail = d.statFail := by
  unfold Dest.mkdirAll at h
  cases hs : d.stat p with
  | found o2 =>
      cases o2 with
      | dirObj p0 =>
          rw [hs] at h
          simp only [Except.ok.injEq] at h
          rw [h]
      | fileObj b0 p0 => rw [hs] at h; cases h
  | notExist =>
      rw [hs] at h
      by_cases hp : p = []
      · simp only [hp, if_true] at h; cases h
      · simp only [hp, if_false] at h
        exact mkdirAllAux_statFail _ perm d d2 h
  | failure =>
      rw [hs] at h
      by_cases hp : p = []
      · simp only [hp, if_true] at h; cases h
      · simp only [hp, if_false] at h
        exact mkdirAllAux_statFail _ perm d d2 h

theorem removeAll_lookup (d : Dest) (p q : FPath) :
    (d.removeAll p).lookup q = if p <+: q then none else d.lookup q := by
  unfold Dest.removeAll Dest.lookup
  simp only []
  induction d.objs with
  | nil => by_cases hpq : p <+: q <;> simp [hpq]
  | cons x xs ih =>
      by_cases hkey : (x.1 == q) = true
      · have hk2 : x.1 = q := by simpa using hkey
        by_cases hpq : p <+: q
        · have : (decide (p <+: x.1)) = true := by
            rw [hk2]
            simpa using hpq
          simp only [List.filter_cons, this, Bool.not_true, if_neg]
          simp only [Bool.false_eq_true, if_false]
          rw [ih]
          simp [hpq]
        · have : (decide (p <+: x.1)) = false := by
            rw [hk2]
            simpa using hpq
          simp only [List.filter_cons, this, Bool.not_false, if_pos]
          rw [List.find?_cons, List.find?_cons]
          simp only [hkey, hpq, if_false]
      · have hkf : (x.1 == q) = false := by
          cases h2 : (x.1 == q) with
          | true => exact absurd h2 hkey
          | false => rfl
        cases hrem : (decide (p <+: x.1)) with
        | true =>
            simp only [List.filter_cons, hrem, Bool.not_true]
            simp only [Bool.false_eq_true, if_false]
            conv_rhs => rw [List.find?_cons]
            simp only [hkf]
            exact ih
        | false =>
            simp only [List.filter_cons, hrem, Bool.not_false, if_pos]
            rw [List.find?_cons, List.find?_cons]
            simp only [hkf]
            exact ih

theorem removeAll_statFail (d : Dest) (p : FPath) :
    (d.removeAll p).statFail = d.statFail := rfl

theorem Permissions_error (srcRoot : FPath) (src : Entry) (n : GoNode)
    (e : Exception) (h : Node.Permissions srcRoot src n = .error e) :
    e = .Panic := by
  unfold Node.Permissions at h
  cases hs : statSrc srcRoot src n.Path with
  | none => rw [hs] at h; cases h; rfl
  | some e2 =>
      cases e2 with
      | file c pm => rw [hs] at h; cases h
      | directory es pm => rw [hs] at h; cases h
      | symlink t => rw [hs] at h; cases h; rfl

theorem nodeBytes_error (srcRoot : FPath) (src : Entry) (n : GoNode)
    (e : Exception) (h : nodeBytes srcRoot src n = .error e) : e = .Panic := by
  unfold nodeBytes at h
  cases hc : n.content with
  | some b => rw [hc] at h; cases h
  | none =>
      rw [hc] at h
      cases hs : statSrc srcRoot src n.Path with
      | none => rw [hs] at h; cases h; rfl
      | some e2 =>
          cases e2 with
          | file c pm => rw [hs] at h; cases h
          | directory es pm => rw [hs] at h; cases h; rfl
          | symlink t => rw [hs] at h; cases h; rfl

theorem mkdirLoop_preserve (srcRoot : FPath) (src : Entry)
    (destination : FPath) (L : List GoNode) (d d2 : Dest) (q : FPath)
    (o : FsObj) (hq : d.lookup q = some o)
    (h : mkdirLoop srcRoot src destination L d = .ok d2) :
    d2.lookup q = some o := by
  induction L generalizing d with
  | nil =>
      unfold mkdirLoop at h
      simp only [Except.ok.injEq] at h
      exact h ▸ hq
  | cons c rest ih =>
      unfold mkdirLoop at h
      cases hp : Node.Permissions srcRoot src c with
      | error e => rw [hp] at h; cases h
      | ok perm =>
          rw [hp] at h
          dsimp only [] at h
          cases hm : d.mkdirAll (destination ++ c.Path) perm with
          | error e => rw [hm] at h; cases h
          | ok d3 =>
              rw [hm] at h
              dsimp only [] at h
              exact ih d3 (mkdirAll_preserve d _ perm d3 q o hq hm) h

theorem mkdirLoop_creates (srcRoot : FPath) (src : Entry)
    (destination : FPath) (L : List GoNode) (d d2 : Dest) (q : FPath)
    (hq : d.lookup q = none) (hq2 : d2.lookup q ≠ none)
    (h : mkdirLoop srcRoot src destination L d = .ok d2) :
    ∃ c ∈ L, q <+: destination ++ c.Path := by
  induction L generalizing d with
  | nil =>
      unfold mkdirLoop at h
      simp only [Except.ok.injEq] at h
      exact absurd (h ▸ hq) hq2
  | cons c rest ih =>
      unfold mkdirLoop at h
      cases hp : Node.Permissions srcRoot src c with
      | error e => rw [hp] at h; cases h
      | ok perm =>
          rw [hp] at h
          dsimp only [] at h
          cases hm : d.mkdirAll (destination ++ c.Path) perm with
          | error e => rw [hm] at h; cases h
          | ok d3 =>
              rw [hm] at h
              dsimp only [] at h
              cases hl : d3.lookup q with
              | none =>
                  obtain ⟨c2, hc2, hpre⟩ := ih d3 hl h
                  exact ⟨c2, List.mem_cons_of_mem c hc2, hpre⟩
              | some o =>
                  have := mkdirAll_creates d _ perm d3 q hq
                    (by rw [hl]; intro hc; cases hc) hm
                  exact ⟨c, List.mem_cons_self _ _, this⟩

theorem mkdirLoop_dirs (srcRoot : FPath) (src : Entry) (destination : FPath)
    (L : List GoNode) (d d2 : Dest)
    (h : mkdirLoop srcRoot src destination L d = .ok d2) :
    ∀ c ∈ L, ∃ pm, d2.lookup (destination ++ c.Path) = some (.dirObj pm) := by
  induction L generalizing d with
  | nil => simp
  | cons c rest ih =>
      unfold mkdirLoop at h
      cases hp : Node.Permissions srcRoot src c with
      | error e => rw [hp] at h; cases h
      | ok perm =>
          rw [hp] at h
          dsimp only [] at h
          cases hm : d.mkdirAll (destination ++ c.Path) perm with
          | error e => rw [hm] at h; cases h
          | ok d3 =>
              rw [hm] at h
              dsimp only [] at h
              intro c2 hc2
              cases List.mem_cons.mp hc2 with
              | inl h2 =>
                  subst h2
                  obtain ⟨pm2, hpm2⟩ := mkdirAll_self d _ perm d3 hm
                  exact ⟨pm2, mkdirLoop_preserve srcRoot src destination rest
                    d3 d2 _ _ hpm2 h⟩
              | inr h2 => exact ih d3 h c2 h2

theorem mkdirLoop_error (srcRoot : FPath) (src : Entry) (destination : FPath)
    (L : List GoNode) (d : Dest) (e : Exception)
    (h : mkdirLoop srcRoot src destination L d = .error e) : e = .Panic := by
  induction L generalizing d with
  | nil => unfold mkdirLoop at h; cases h
  | cons c rest ih =>
      unfold mkdirLoop at h
      cases hp : Node.Permissions srcRoot src c with
      | error e2 =>
          rw [hp] at h
          cases h
          exact Permissions_error srcRoot src c e hp
      | ok perm =>
          rw [hp] at h
          dsimp only [] at h
          cases hm : d.mkdirAll (destination ++ c.Path) perm with
          | error e2 =>
              rw [hm] at h
              cases h
              exact mkdirAll_error d _ perm e hm
          | ok d3 =>
              rw [hm] at h
              dsimp only [] at h
              exact ih d3 h

theorem mkdirLoop_statFail (srcRoot : FPath) (src : Entry)
    (destination : FPath) (L : List GoNode) (d d2 : Dest)
    (h : mkdirLoop srcRoot src destination L d = .ok d2) :
    d2.statFail = d.statFail := by
  induction L generalizing d with
  | nil =>
      unfold mkdirLoop at h
      simp only [Except.ok.injEq] at h
      rw [h]
  | cons c rest ih =>
      unfold mkdirLoop at h
      cases hp : Node.Permissions srcRoot src c with
      | error e => rw [hp] at h; cases h
      | ok perm =>
          rw [hp] at h
          dsimp only [] at h
          cases hm : d.mkdirAll (destination ++ c.Path) perm with
          | error e => rw [hm] at h; cases h
          | ok d3 =>
              rw [hm] at h
              dsimp only [] at h
              rw [ih d3 h, mkdirAll_statFail d _ perm d3 hm]

theorem mkdirLoop_error_of_perm (srcRoot : FPath) (src : Entry)
    (destination : FPath) (L : List GoNode) (d : Dest)
    (hc : ∃ c ∈ L, Node.Permissions srcRoot src c = .error .Panic) :
    mkdirLoop srcRoot src destination L d = .error .Panic := by
  induction L generalizing d with
  | nil => simp at hc
  | cons c rest ih =>
      obtain ⟨c2, hc2, hperm⟩ := hc
      unfold mkdirLoop
      cases List.mem_cons.mp hc2 with
      | inl h2 =>
          subst h2
          rw [hperm]
      | inr h2 =>
          cases hp : Node.Permissions srcRoot src c with
          | error e =>
              have he := Permissions_error srcRoot src c e hp
              subst he
              rfl
          | ok perm =>
              dsimp only []
              cases hm : d.mkdirAll (destination ++ c.Path) perm with
              | error e =>
                  have he := mkdirAll_error d _ perm e hm
                  subst he
                  rfl
              | ok d3 =>
                  dsimp only []
                  exact ih d3 ⟨c2, h2, hperm⟩

theorem copyFileLoop_preserve (srcRoot : FPath) (src : Entry)
    (destination : FPath) (L : List GoNode) (d d2 : Dest) (q : FPath)
    (o : FsObj) (hq : d.lookup q = some o)
    (h : copyFileLoop srcRoot src destination L d = .ok d2) :
    d2.lookup q = some o := by
  induction L generalizing d with
  | nil =>
      unfold copyFileLoop at h
      simp only [Except.ok.injEq] at h
      exact h ▸ hq
  | cons c rest ih =>
      unfold copyFileLoop at h
      cases hs : d.stat (destination ++ c.Path) with
      | notExist =>
          rw [hs] at h
          dsimp only [] at h
          cases hb : nodeBytes srcRoot src c with
          | error e => rw [hb] at h; cases h
          | ok bytes =>
              rw [hb] at h
              dsimp only [] at h
              cases hp : Node.Permissions srcRoot src c with
              | error e => rw [hp] at h; cases h
              | ok perm =>
                  rw [hp] at h
                  dsimp only [] at h
                  cases hw : d.writeFile (destination ++ c.Path) bytes perm with
                  | error e => rw [hw] at h; cases h
                  | ok d3 =>
                      rw [hw] at h
                      dsimp only [] at h
                      have hne : q ≠ destination ++ c.Path := by
                        intro hc
                        have := ((stat_notExist_iff d _).mp hs).2
                        rw [← hc] at this
                        rw [this] at hq
                        cases hq
                      have hq3 : d3.lookup q = some o := by
                        rw [writeFile_ok_ne d _ bytes perm d3 q hne hw]
                        exact hq
                      exact ih d3 hq3 h
      | found o2 =>
          rw [hs] at h
          dsimp only [] at h
          exact ih d hq h
      | failure =>
          rw [hs] at h
          dsimp only [] at h
          exact ih d hq h

theorem copyFileLoop_statFail (srcRoot : FPath) (src : Entry)
    (destination : FPath) (L : List GoNode) (d d2 : Dest)
    (h : copyFileLoop srcRoot src destination L d = .ok d2) :
    d2.statFail = d.statFail := by
  induction L generalizing d with
  | nil =>
      unfold copyFileLoop at h
      simp only [Except.ok.injEq] at h
      rw [h]
  | cons c rest ih =>
      unfold copyFileLoop at h
      cases hs : d.stat (destination ++ c.Path) with
      | notExist =>
          rw [hs] at h
          dsimp only [] at h
          cases hb : nodeBytes srcRoot src c with
          | error e => rw [hb] at h; cases h
          | ok bytes =>
              rw [hb] at h
              dsimp only [] at h
              cases hp : Node.Permissions srcRoot src c with
              | error e => rw [hp] at h; cases h
              | ok perm =>
                  rw [hp] at h
                  dsimp only [] at h
                  cases hw : d.writeFile (destination ++ c.Path) bytes perm with
                  | error e => rw [hw] at h; cases h
                  | ok d3 =>
                      rw [hw] at h
                      dsimp only [] at h
                      rw [ih d3 h, writeFile_statFail d _ bytes perm d3 hw]
      | found o2 =>
          rw [hs] at h
          dsimp only [] at h
          exact ih d h
      | failure =>
          rw [hs] at h
          dsimp only [] at h
          exact ih d h

theorem copyFileLoop_creates (srcRoot : FPath) (src : Entry)
    (destination : FPath) (L : List GoNode) (d d2 : Dest) (q : FPath)
    (hq : d.lookup q = none) (hq2 : d2.lookup q ≠ none)
    (h : copyFileLoop srcRoot src destination L d = .ok d2) :
    ∃ c ∈ L, q <+: destination ++ c.Path := by
  induction L generalizing d with
  | nil =>
      unfold copyFileLoop at h
      simp only [Except.ok.injEq] at h
      exact absurd (h ▸ hq) hq2
  | cons c rest ih =>
      unfold copyFileLoop at h
      cases hs : d.stat (destination ++ c.Path) with
      | notExist =>
          rw [hs] at h
          dsimp only [] at h
          cases hb : nodeBytes srcRoot src c with
          | error e => rw [hb] at h; cases h
          | ok bytes =>
              rw [hb] at h
              dsimp only [] at h
              cases hp : Node.Permissions srcRoot src c with
              | error e => rw [hp] at h; cases h
              | ok perm =>
                  rw [hp] at h
                  dsimp only [] at h
                  cases hw : d.writeFile (destination ++ c.Path) bytes perm with
                  | error e => rw [hw] at h; cases h
                  | ok d3 =>
                      rw [hw] at h
                      dsimp only [] at h
                      by_cases hqt : q = destination ++ c.Path
                      · exact ⟨c, List.mem_cons_self _ _, hqt ▸ List.prefix_refl q⟩
                      · have hq3 : d3.lookup q = none := by
                          rw [writeFile_ok_ne d _ bytes perm d3 q hqt hw]
                          exact hq
                        obtain ⟨c2, hc2, hpre⟩ := ih d3 hq3 h
                        exact ⟨c2, List.mem_cons_of_mem c hc2, hpre⟩
      | found o2 =>
          rw [hs] at h
          dsimp only [] at h
          obtain ⟨c2, hc2, hpre⟩ := ih d hq h
          exact ⟨c2, List.mem_cons_of_mem c hc2, hpre⟩
      | failure =>
          rw [hs] at h
          dsimp only [] at h
          obtain ⟨c2, hc2, hpre⟩ := ih d hq h
          exact ⟨c2, List.mem_cons_of_mem c hc2, hpre⟩

theorem copyFileLoop_files (srcRoot : FPath) (src : Entry)
    (destination : FPath) (L : List GoNode) (d d2 : Dest)
    (h : copyFileLoop srcRoot src destination L d = .ok d2) :
    ∀ c ∈ L, d2.lookup (destination ++ c.Path) ≠ none ∨
      (destination ++ c.Path) ∈ d.statFail := by
  induction L generalizing d with
  | nil => simp
  | cons c rest ih =>
      intro c2 hc2
      unfold copyFileLoop at h
      cases hs : d.stat (destination ++ c.Path) with
      | notExist =>
          rw [hs] at h
          dsimp only [] at h
          cases hb : nodeBytes srcRoot src c with
          | error e => rw [hb] at h; cases h
          | ok bytes =>
              rw [hb] at h
              dsimp only [] at h
              cases hp : Node.Permissions srcRoot src c with
              | error e => rw [hp] at h; cases h
              | ok perm =>
                  rw [hp] at h
                  dsimp only [] at h
                  cases hw : d.writeFile (destination ++ c.Path) bytes perm with
                  | error e => rw [hw] at h; cases h
                  | ok d3 =>
                      rw [hw] at h
                      dsimp only [] at h
                      cases List.mem_cons.mp hc2 with
                      | inl h2 =>
                          subst h2
                          obtain ⟨pm2, hpm2⟩ :=
                            writeFile_ok_self d _ bytes perm d3 hw
                          left
                          rw [copyFileLoop_preserve srcRoot src destination
                            rest d3 d2 _ _ hpm2 h]
                          intro hc
                          cases hc
                      | inr h2 =>
                          cases ih d3 h c2 h2 with
                          | inl h3 => exact Or.inl h3
                          | inr h3 =>
                              right
                              rw [← writeFile_statFail d _ bytes perm d3 hw]
                              exact h3
      | found o2 =>
          rw [hs] at h
          dsimp only [] at h
          cases List.mem_cons.mp hc2 with
          | inl h2 =>
              subst h2
              have hl := ((stat_found_iff d _ o2).mp hs).2
              left
              rw [copyFileLoop_preserve srcRoot src destination rest d d2
                _ _ hl h]
              intro hc
              cases hc
          | inr h2 => exact ih d h c2 h2
      | failure =>
          rw [hs] at h
          dsimp only [] at h
          cases List.mem_cons.mp hc2 with
          | inl h2 =>
              subst h2
              exact Or.inr ((stat_failure_iff d _).mp hs)
          | inr h2 => exact ih d h c2 h2

theorem writeFileLoop_preserve_ne_file (srcRoot : FPath) (src : Entry)
    (destination : FPath) (L : List GoNode) (d d2 : Dest) (q : FPath)
    (pm : Nat) (hq : d.lookup q = some (.dirObj pm))
    (h : writeFileLoop srcRoot src destination L d = .ok d2) :
    d2.lookup q = some (.dirObj pm) := by
  induction L generalizing d with
  | nil =>
      unfold writeFileLoop at h
      simp only [Except.ok.injEq] at h
      exact h ▸ hq
  | cons c rest ih =>
      unfold writeFileLoop at h
      cases hb : nodeBytes srcRoot src c with
      | error e => rw [hb] at h; cases h
      | ok bytes =>
          rw [hb] at h
          dsimp only [] at h
          cases hp : Node.Permissions srcRoot src c with
          | error e => rw [hp] at h; cases h
          | ok perm =>
              rw [hp] at h
              dsimp only [] at h
              cases hw : d.writeFile (destination ++ c.Path) bytes perm with
              | error e => rw [hw] at h; cases h
              | ok d3 =>
                  rw [hw] at h
                  dsimp only [] at h
                  have hne : q ≠ destination ++ c.Path := by
                    intro hc
                    subst hc
                    unfold Dest.writeFile at hw
                    rw [hq] at hw
                    cases hw
                  have hq3 : d3.lookup q = some (.dirObj pm) := by
                    rw [writeFile_ok_ne d _ bytes perm d3 q hne hw]
                    exact hq
                  exact ih d3 hq3 h

theorem writeFileLoop_preserve_file (srcRoot : FPath) (src : Entry)
    (destination : FPath) (L : List GoNode) (d d2 : Dest) (q : FPath)
    (hq : ∃ b pm, d.lookup q = some (.fileObj b pm))
    (h : writeFileLoop srcRoot src destination L d = .ok d2) :
    ∃ b pm, d2.lookup q = some (.fileObj b pm) := by
  induction L generalizing d with
  | nil =>
      unfold writeFileLoop at h
      simp only [Except.ok.injEq] at h
      exact h ▸ hq
  | cons c rest ih =>
      unfold writeFileLoop at h
      cases hb : nodeBytes srcRoot src c with
      | error e => rw [hb] at h; cases h
      | ok bytes =>
          rw [hb] at h
          dsimp only [] at h
          cases hp : Node.Permissions srcRoot src c with
          | error e => rw [hp] at h; cases h
          | ok perm =>
              rw [hp] at h
              dsimp only [] at h
              cases hw : d.writeFile (destination ++ c.Path) bytes perm with
              | error e => rw [hw] at h; cases h
              | ok d3 =>
                  rw [hw] at h
                  dsimp only [] at h
                  by_cases hqt : q = destination ++ c.Path
                  · subst hqt
                    obtain ⟨pm2, hpm2⟩ := writeFile_ok_self d _ bytes perm d3 hw
                    exact ih d3 ⟨bytes, pm2, hpm2⟩ h
                  · obtain ⟨b0, pm0, hb0⟩ := hq
                    have hq3 : d3.lookup q = some (.fileObj b0 pm0) := by
                      rw [writeFile_ok_ne d _ bytes perm d3 q hqt hw]
                      exact hb0
                    exact ih d3 ⟨b0, pm0, hq3⟩ h

theorem writeFileLoop_files (srcRoot : FPath) (src : Entry)
    (destination : FPath) (L : List GoNode) (d d2 : Dest)
    (h : writeFileLoop srcRoot src destination L d = .ok d2) :
    ∀ c ∈ L, ∃ b pm, d2.lookup (destination ++ c.Path) =
      some (.fileObj b pm) := by
  induction L generalizing d with
  | nil => simp
  | cons c rest ih =>
      intro c2 hc2
      unfold writeFileLoop at h
      cases hb : nodeBytes srcRoot src c with
      | error e => rw [hb] at h; cases h
      | ok bytes =>
          rw [hb] at h
          dsimp only [] at h
          cases hp : Node.Permissions srcRoot src c with
          | error e => rw [hp] at h; cases h
          | ok perm =>
              rw [hp] at h
              dsimp only [] at h
              cases hw : d.writeFile (destination ++ c.Path) bytes perm with
              | error e => rw [hw] at h; cases h
              | ok d3 =>
                  rw [hw] at h
                  dsimp only [] at h
                  cases List.mem_cons.mp hc2 with
                  | inl h2 =>
                      subst h2
                      obtain ⟨pm2, hpm2⟩ := writeFile_ok_self d _ bytes perm d3 hw
                      exact writeFileLoop_preserve_file srcRoot src destination
                        rest d3 d2 _ ⟨bytes, pm2, hpm2⟩ h
                  | inr h2 => exact ih d3 h c2 h2

theorem writeFileLoop_creates (srcRoot : FPath) (src : Entry)
    (destination : FPath) (L : List GoNode) (d d2 : Dest) (q : FPath)
    (hq : d.lookup q = none) (hq2 : d2.lookup q ≠ none)
    (h : writeFileLoop srcRoot src destination L d = .ok d2) :
    ∃ c ∈ L, q <+: destination ++ c.Path := by
  induction L generalizing d with
  | nil =>
      unfold writeFileLoop at h
      simp only [Except.ok.injEq] at h
      exact absurd (h ▸ hq) hq2
  | cons c rest ih =>
      unfold writeFileLoop at h
      cases hb : nodeBytes srcRoot src c with
      | error e => rw [hb] at h; cases h
      | ok bytes =>
          rw [hb] at h
          dsimp only [] at h
          cases hp : Node.Permissions srcRoot src c with
          | error e => rw [hp] at h; cases h
          | ok perm =>
              rw [hp] at h
              dsimp only [] at h
              cases hw : d.writeFile (destination ++ c.Path) bytes perm with
              | error e => rw [hw] at h; cases h
              | ok d3 =>
                  rw [hw] at h
                  dsimp only [] at h
                  by_cases hqt : q = destination ++ c.Path
                  · exact ⟨c, List.mem_cons_self _ _, hqt ▸ List.prefix_refl q⟩
                  · have hq3 : d3.lookup q = none := by
                      rw [writeFile_ok_ne d _ bytes perm d3 q hqt hw]
                      exact hq
                    obtain ⟨c2, hc2, hpre⟩ := ih d3 hq3 h
                    exact ⟨c2, List.mem_cons_of_mem c hc2, hpre⟩

theorem writeFileLoop_error_of_bytes (srcRoot : FPath) (src : Entry)
    (destination : FPath) (L : List GoNode) (d : Dest)
    (hc : ∃ c ∈ L, nodeBytes srcRoot src c = .error .Panic) :
    writeFileLoop srcRoot src destination L d = .error .Panic := by
  induction L generalizing d with
  | nil => simp at hc
  | cons c rest ih =>
      obtain ⟨c2, hc2, hbytes⟩ := hc
      unfold writeFileLoop
      cases List.mem_cons.mp hc2 with
      | inl h2 =>
          subst h2
          rw [hbytes]
      | inr h2 =>
          cases hb : nodeBytes srcRoot src c with
          | error e =>
              have he := nodeBytes_error srcRoot src c e hb
              subst he
              rfl
          | ok bytes =>
              dsimp only []
              cases hp : Node.Permissions srcRoot src c with
              | error e =>
                  have he := Permissions_error srcRoot src c e hp
                  subst he
                  rfl
              | ok perm =>
                  dsimp only []
                  cases hw : d.writeFile (destination ++ c.Path) bytes perm with
                  | error e =>
                      have he := writeFile_error d _ bytes perm e hw
                      subst he
                      rfl
                  | ok d3 =>
                      dsimp only []
                      exact ih d3 ⟨c2, h2, hbytes⟩

theorem setContent_ty (n : GoNode) (co : Option String) :
    (n.setContent co).ty = n.ty := by
  cases n with
  | mk p d nm t c ns tbl dep co2 => rfl

theorem setContent_content (n : GoNode) (co : Option String) :
    (n.setContent co).content = co := by
  cases n with
  | mk p d nm t c ns tbl dep co2 => rfl

/-- Claim C5: `Contents` fails with `NilNode` on an absent receiver and
with `InvalidFileNode` on a non-file node; on a file node with an empty
cache it reads the file's current bytes from disk into the cache (or
panics if the read fails), and once the cache is filled every later
call returns the cached bytes and touches no disk state at all (the
result is the same for every disk state `fsread2`). -/
theorem C5_contents_cache (fsread fsread2 : FPath → Option String)
    (n : GoNode) :
    (Node.Contents fsread none = .error .NilNode) ∧
    (n.ty ≠ File → Node.Contents fsread (some n) = .error .InvalidFileNode) ∧
    (∀ b, n.ty = File → n.content = none → fsread n.Path = some b →
      Node.Contents fsread (some n) = .ok (b, n.setContent (some b))) ∧
    (n.ty = File → n.content = none → fsread n.Path = none →
      Node.Contents fsread (some n) = .error .Panic) ∧
    (∀ b n2, Node.Contents fsread (some n) = .ok (b, n2) →
      Node.Contents fsread2 (some n2) = .ok (b, n2)) := by
  refine ⟨rfl, ?_, ?_, ?_, ?_⟩
  · intro h
    simp [Node.Contents, h]
  · intro b h1 h2 h3
    simp [Node.Contents, Node.read, h1, h2, h3, setContent_content]
  · intro h1 h2 h3
    simp [Node.Contents, Node.read, h1, h2, h3]
  · intro b n2 hok
    by_cases hty : n.ty = File
    · cases hcon : n.content with
      | some b0 =>
          have hread : Node.read fsread n = .ok n := by
            unfold Node.read
            simp [hty, hcon]
          simp only [Node.Contents, hty, ne_eq, not_true_eq_false, if_false,
            hread, hcon] at hok
          simp only [Option.getD_some, Except.ok.injEq, Prod.mk.injEq] at hok
          obtain ⟨hb, hn2⟩ := hok
          subst hb
          subst hn2
          have hread2 : Node.read fsread2 n = .ok n := by
            unfold Node.read
            simp [hty, hcon]
          simp [Node.Contents, hty, hread2, hcon]
      | none =>
          cases hfs : fsread n.Path with
          | none =>
              have hread : Node.read fsread n = .error .Panic := by
                unfold Node.read
                simp [hty, hcon, hfs]
              simp [Node.Contents, hty, hread] at hok
          | some bb =>
              have hread : Node.read fsread n = .ok (n.setContent (some bb)) := by
                unfold Node.read
                simp [hty, hcon, hfs]
              simp only [Node.Contents, hty, ne_eq, not_true_eq_false,
                if_false, hread, setContent_content, Option.getD_some,
                Except.ok.injEq, Prod.mk.injEq] at hok
              obtain ⟨hb, hn2⟩ := hok
              subst hb
              have hread2 : Node.read fsread2 n2 = .ok n2 := by
                unfold Node.read
                rw [← hn2, setContent_content]
                simp
              have hty2 : n2.ty = File := by
                rw [← hn2, setContent_ty]
                exact hty
              have hcon2 : n2.content = some bb := by
                rw [← hn2, setContent_content]
              simp [Node.Contents, hty2, hread2, hcon2]
    · simp [Node.Contents, hty] at hok

/-- Claim C5 witness: on a concrete file node with an empty cache, the
first call reads the disk and the nil / cached behaviors hold. -/
theorem C5_contents_cache_witness :
    fileNodeA.ty = File ∧ fileNodeA.content = none ∧
      fsreadA fileNodeA.Path = some "hi" ∧
      Node.Contents fsreadA none = .error .NilNode ∧
      Node.Contents fsreadA (some fileNodeA) =
        .ok ("hi", fileNodeA.setContent (some "hi")) := by
  have hmain := C5_contents_cache fsreadA fsreadA fileNodeA
  exact ⟨rfl, rfl, rfl, hmain.1, hmain.2.2.1 "hi" rfl rfl rfl⟩

/-- Claim C6: `Copy` never changes anything that already exists at the
destination: every pre-existing destination object — file content and
file or directory permission bits alike — is exactly preserved, so in
particular an existing destination file is never overwritten. -/
theorem C6_copy_preserves_existing (srcRoot : FPath) (src : Entry)
    (n : GoNode) (destination : FPath) (d d2 : Dest)
    (h : Node.Copy srcRoot src n destination d = .ok d2) :
    ∀ p o, d.lookup p = some o → d2.lookup p = some o := by
  unfold Node.Copy at h
  cases hm : mkdirLoop srcRoot src destination n.Directories d with
  | error e => rw [hm] at h; cases h
  | ok d1 =>
      rw [hm] at h
      dsimp only [] at h
      intro p o hp
      exact copyFileLoop_preserve srcRoot src destination n.Files d1 d2 p o
        (mkdirLoop_preserve srcRoot src destination n.Directories d d1 p o
          hp hm) h

/-- Claim C6 witness: copying onto a destination that already holds
`a.txt` with different content leaves that file exactly as it was. -/
theorem C6_copy_preserves_existing_witness :
    Node.Copy ["r"] fsA rootA ["d"] destC6 = .ok dC6X ∧
      destC6.lookup ["d", "r", "a.txt"] = some (.fileObj "OLD" 7) ∧
      dC6X.lookup ["d", "r", "a.txt"] = some (.fileObj "OLD" 7) :=
  ⟨rfl, rfl,
    C6_copy_preserves_existing ["r"] fsA rootA ["d"] destC6 dC6X rfl
      ["d", "r", "a.txt"] (.fileObj "OLD" 7) rfl⟩

theorem mem_Directories_iff (n c : GoNode) :
    c ∈ n.Directories ↔ (c ∈ n.Table ∧ c.ty = Directory) := by
  unfold GoNode.Directories
  rw [List.mem_filter]
  simp [beq_iff_eq]

theorem mem_Files_iff (n c : GoNode) :
    c ∈ n.Files ↔ (c ∈ n.Table ∧ c.ty = File) := by
  unfold GoNode.Files
  rw [List.mem_filter]
  simp [beq_iff_eq]

/-- Claim C2 counterexample: a single `Copy` call on the root of the
sample tree creates `d/r/b/c.txt` at the destination, although
`r/b/c.txt` is a grandchild — strictly deeper than one level below the
node — and not among the root's direct children, because the root's
table is the global index. -/
theorem C2_counterexample :
    Node.Copy ["r"] fsA rootA ["d"] ⟨[], []⟩ = .ok dC2X ∧
      rootA.Nodes.map GoNode.Path = [["r", "a.txt"], ["r", "b"]] ∧
      Dest.lookup ⟨[], []⟩ ["d", "r", "b", "c.txt"] = none ∧
      dC2X.lookup ["d", "r", "b", "c.txt"] = some (.fileObj "x" 416) :=
  ⟨rfl, rfl, rfl, rfl⟩

/-- Claim C2 as amended: each mirror operation acts exactly on the
entries of the node's `Table()` — for every directory entry it ensures
a destination directory, for every file entry it (conditionally for
`Copy`, unconditionally otherwise) writes the file, and every path it
creates lies on the way to `destination ++ entry.Path` for some table
entry.  For a non-root node the table holds only direct children; for
the root it is the global index, so deeper descendants are mirrored. -/
theorem C2_mirror_scope (srcRoot : FPath) (src : Entry) (n : GoNode)
    (destination : FPath) (d d2 : Dest) :
    (Node.Copy srcRoot src n destination d = .ok d2 →
      (∀ c ∈ n.Table, c.ty = Directory →
        ∃ pm, d2.lookup (destination ++ c.Path) = some (.dirObj pm)) ∧
      (∀ c ∈ n.Table, c.ty = File →
        d2.lookup (destination ++ c.Path) ≠ none ∨
          (destination ++ c.Path) ∈ d.statFail) ∧
      (∀ p, d.lookup p = none → d2.lookup p ≠ none →
        ∃ c ∈ n.Table, p <+: destination ++ c.Path)) ∧
    (Node.Replicate srcRoot src n destination d = .ok d2 →
      (∀ c ∈ n.Table, c.ty = Directory →
        ∃ pm, d2.lookup (destination ++ c.Path) = some (.dirObj pm)) ∧
      (∀ c ∈ n.Table, c.ty = File →
        ∃ b pm, d2.lookup (destination ++ c.Path) = some (.fileObj b pm)) ∧
      (∀ p, d.lookup p = none → d2.lookup p ≠ none →
        ∃ c ∈ n.Table, p <+: destination ++ c.Path)) ∧
    (Node.Replace srcRoot src n destination d = .ok d2 →
      (∀ c ∈ n.Table, c.ty = Directory →
        ∃ pm, d2.lookup (destination ++ c.Path) = some (.dirObj pm)) ∧
      (∀ c ∈ n.Table, c.ty = File →
        ∃ b pm, d2.lookup (destination ++ c.Path) = some (.fileObj b pm)) ∧
      (∀ p, d.lookup p = none → d2.lookup p ≠ none →
        ∃ c ∈ n.Table, p <+: destination ++ c.Path)) := by
  refine ⟨?_, ?_, ?_⟩
  · intro h
    unfold Node.Copy at h
    cases hm : mkdirLoop srcRoot src destination n.Directories d with
    | error e => rw [hm] at h; cases h
    | ok d1 =>
        rw [hm] at h
        dsimp only [] at h
        refine ⟨?_, ?_, ?_⟩
        · intro c hc hty
          obtain ⟨pm, hpm⟩ := mkdirLoop_dirs srcRoot src destination
            n.Directories d d1 hm c ((mem_Directories_iff n c).mpr ⟨hc, hty⟩)
          exact ⟨pm, copyFileLoop_preserve srcRoot src destination n.Files
            d1 d2 _ _ hpm h⟩
        · intro c hc hty
          cases copyFileLoop_files srcRoot src destination n.Files d1 d2 h c
              ((mem_Files_iff n c).mpr ⟨hc, hty⟩) with
          | inl h2 => exact Or.inl h2
          | inr h2 =>
              right
              rw [← mkdirLoop_statFail srcRoot src destination n.Directories
                d d1 hm]
              exact h2
        · intro p hp hp2
          cases hl : d1.lookup p with
          | some o =>
              obtain ⟨c, hcd, hpre⟩ := mkdirLoop_creates srcRoot src
                destination n.Directories d d1 p hp
                (by rw [hl]; intro hc; cases hc) hm
              exact ⟨c, ((mem_Directories_iff n c).mp hcd).1, hpre⟩
          | none =>
              obtain ⟨c, hcf, hpre⟩ := copyFileLoop_creates srcRoot src
                destination n.Files d1 d2 p hl hp2 h
              exact ⟨c, ((mem_Files_iff n c).mp hcf).1, hpre⟩
  · intro h
    unfold Node.Replicate at h
    cases hm : mkdirLoop srcRoot src destination n.Directories d with
    | error e => rw [hm] at h; cases h
    | ok d1 =>
        rw [hm] at h
        dsimp only [] at h
        refine ⟨?_, ?_, ?_⟩
        · intro c hc hty
          obtain ⟨pm, hpm⟩ := mkdirLoop_dirs srcRoot src destination
            n.Directories d d1 hm c ((mem_Directories_iff n c).mpr ⟨hc, hty⟩)
          exact ⟨pm, writeFileLoop_preserve_ne_file srcRoot src destination
            n.Files d1 d2 _ pm hpm h⟩
        · intro c hc hty
          exact writeFileLoop_files srcRoot src destination n.Files d1 d2 h c
            ((mem_Files_iff n c).mpr ⟨hc, hty⟩)
        · intro p hp hp2
          cases hl : d1.lookup p with
          | some o =>
              obtain ⟨c, hcd, hpre⟩ := mkdirLoop_creates srcRoot src
                destination n.Directories d d1 p hp
                (by rw [hl]; intro hc; cases hc) hm
              exact ⟨c, ((mem_Directories_iff n c).mp hcd).1, hpre⟩
          | none =>
              obtain ⟨c, hcf, hpre⟩ := writeFileLoop_creates srcRoot src
                destination n.Files d1 d2 p hl hp2 h
              exact ⟨c, ((mem_Files_iff n c).mp hcf).1, hpre⟩
  · intro h
    unfold Node.Replace at h
    dsimp only [] at h
    have hd0 : ∀ p, d.lookup p = none →
        (if exists' d destination then d.removeAll destination else d).lookup
          p = none := by
      intro p hp
      cases hex : exists' d destination with
      | true =>
          simp only [hex, if_true]
          rw [removeAll_lookup]
          by_cases hpre : destination <+: p
          · simp [hpre]
          · simp [hpre, hp]
      | false => simp only [hex, Bool.false_eq_true, if_false]; exact hp
    cases hm : mkdirLoop srcRoot src destination n.Directories
        (if exists' d destination then d.removeAll destination else d) with
    | error e => rw [hm] at h; cases h
    | ok d1 =>
        rw [hm] at h
        dsimp only [] at h
        refine ⟨?_, ?_, ?_⟩
        · intro c hc hty
          obtain ⟨pm, hpm⟩ := mkdirLoop_dirs srcRoot src destination
            n.Directories _ d1 hm c ((mem_Directories_iff n c).mpr ⟨hc, hty⟩)
          exact ⟨pm, writeFileLoop_preserve_ne_file srcRoot src destination
            n.Files d1 d2 _ pm hpm h⟩
        · intro c hc hty
          exact writeFileLoop_files srcRoot src destination n.Files d1 d2 h c
            ((mem_Files_iff n c).mpr ⟨hc, hty⟩)
        · intro p hp hp2
          cases hl : d1.lookup p with
          | some o =>
              obtain ⟨c, hcd, hpre⟩ := mkdirLoop_creates srcRoot src
                destination n.Directories _ d1 p (hd0 p hp)
                (by rw [hl]; intro hc; cases hc) hm
              exact ⟨c, ((mem_Directories_iff n c).mp hcd).1, hpre⟩
          | none =>
              obtain ⟨c, hcf, hpre⟩ := writeFileLoop_creates srcRoot src
                destination n.Files d1 d2 p hl hp2 h
              exact ⟨c, ((mem_Files_iff n c).mp hcf).1, hpre⟩

/-- Claim C2 (amended) witness: on the sample tree's root, the `b`
table entry gets its destination directory. -/
theorem C2_mirror_scope_witness :
    Node.Copy ["r"] fsA rootA ["d"] ⟨[], []⟩ = .ok dC2X ∧
      (∃ pm, dC2X.lookup (["d"] ++ (rootA.Table.get ⟨2, by decide⟩).Path) =
        some (.dirObj pm)) := by
  have hmain :=
    (C2_mirror_scope ["r"] fsA rootA ["d"] ⟨[], []⟩ dC2X).1 rfl
  exact ⟨rfl, hmain.1 (rootA.Table.get ⟨2, by decide⟩)
    (List.get_mem rootA.Table 2 (by decide)) (by decide)⟩

/-- Claim C4 counterexample: with a destination where `stat` fails at
the copy target of the only file child, `Copy` completes successfully,
silently skipping that file — an I/O stat failure that neither aborts
the operation nor is retried, contradicting "every I/O error is
fatal". -/
theorem C4_counterexample :
    Node.Copy ["r"] fs1 root1 ["d"] destC4 = .ok destC4 ∧
      destC4.stat ["d", "r", "a.txt"] = .failure ∧
      root1.Files.map GoNode.Path = [["r", "a.txt"]] ∧
      destC4.lookup ["d", "r", "a.txt"] = none :=
  ⟨rfl, rfl, rfl, rfl⟩

/-- Claim C4 as amended: the I/O errors a mirror operation actually
encounters are fatal and abort the whole operation with no per-item
skipping and no retry — a failing source-side stat (`Permissions`) on
any directory entry aborts all three operations, and unobtainable file
bytes abort `Replicate` and `Replace` — with one exception the code
makes: a failing existence-stat on a destination file target in `Copy`
silently skips that file, and a failing `exists` probe in `Replace`
skips the delete, without aborting. -/
theorem C4_encountered_errors_abort (srcRoot : FPath) (src : Entry)
    (n : GoNode) (destination : FPath) (d : Dest) :
    ((∃ c ∈ n.Table, c.ty = Directory ∧
        Node.Permissions srcRoot src c = .error .Panic) →
      Node.Copy srcRoot src n destination d = .error .Panic ∧
      Node.Replicate srcRoot src n destination d = .error .Panic ∧
      Node.Replace srcRoot src n destination d = .error .Panic) ∧
    ((∃ c ∈ n.Table, c.ty = File ∧
        nodeBytes srcRoot src c = .error .Panic) →
      Node.Replicate srcRoot src n destination d = .error .Panic ∧
      Node.Replace srcRoot src n destination d = .error .Panic) := by
  constructor
  · rintro ⟨c, hc, hty, hperm⟩
    have hcd : c ∈ n.Directories := (mem_Directories_iff n c).mpr ⟨hc, hty⟩
    refine ⟨?_, ?_, ?_⟩
    · unfold Node.Copy
      rw [mkdirLoop_error_of_perm srcRoot src destination n.Directories d
        ⟨c, hcd, hperm⟩]
    · unfold Node.Replicate
      rw [mkdirLoop_error_of_perm srcRoot src destination n.Directories d
        ⟨c, hcd, hperm⟩]
    · unfold Node.Replace
      dsimp only []
      rw [mkdirLoop_error_of_perm srcRoot src destination n.Directories _
        ⟨c, hcd, hperm⟩]
  · rintro ⟨c, hc, hty, hbytes⟩
    have hcf : c ∈ n.Files := (mem_Files_iff n c).mpr ⟨hc, hty⟩
    constructor
    · unfold Node.Replicate
      cases hm : mkdirLoop srcRoot src destination n.Directories d with
      | error e =>
          have he := mkdirLoop_error srcRoot src destination n.Directories
            d e hm
          subst he
          rfl
      | ok d1 =>
          dsimp only []
          exact writeFileLoop_error_of_bytes srcRoot src destination n.Files
            d1 ⟨c, hcf, hbytes⟩
    · unfold Node.Replace
      dsimp only []
      cases hm : mkdirLoop srcRoot src destination n.Directories
          (if exists' d destination then d.removeAll destination else d) with
      | error e =>
          have he := mkdirLoop_error srcRoot src destination n.Directories
            _ e hm
          subst he
          rfl
      | ok d1 =>
          dsimp only []
          exact writeFileLoop_error_of_bytes srcRoot src destination n.Files
            d1 ⟨c, hcf, hbytes⟩

/-- Claim C4 (amended) witness: against a source tree from which the
`b` directory has vanished, all three mirror operations on `rootA`
abort. -/
theorem C4_encountered_errors_abort_witness :
    (rootA.Table.get ⟨2, by decide⟩).ty = Directory ∧
      Node.Permissions ["r"] fs1 (rootA.Table.get ⟨2, by decide⟩) =
        .error .Panic ∧
      Node.Copy ["r"] fs1 rootA ["dst"] ⟨[], []⟩ = .error .Panic ∧
      Node.Replicate ["r"] fs1 rootA ["dst"] ⟨[], []⟩ = .error .Panic ∧
      Node.Replace ["r"] fs1 rootA ["dst"] ⟨[], []⟩ = .error .Panic := by
  have hmain :=
    (C4_encountered_errors_abort ["r"] fs1 rootA ["dst"] ⟨[], []⟩).1
      ⟨rootA.Table.get ⟨2, by decide⟩,
        List.get_mem rootA.Table 2 (by decide), by decide, by rfl⟩
  exact ⟨by decide, rfl, hmain.1, hmain.2.1, hmain.2.2⟩
